import Mathlib

/-!
# Verification of the pyABCI connection protocol engine

A shallow embedding of the core of the pyABCI repository: the framing codec
and frame-extraction loop of `Protocol.data_received`, the two ordered task
processors of `src/abci/protocol.py`, the connection-classification logic of
`Protocol.process_request`, the legacy response-queue engine of
`src/tend/abci/protocol.py`, the application-state update rule of
`src/abci/ext/common.py`, the transaction keeper of
`src/abci/ext/txkeeper.py`, the block-hash accumulator of
`src/tend/abci/bhasher.py`, and the class-attribute sharing of the server
and processor classes.  Byte strings are `List Nat` (each entry a byte),
machine integers are `Nat`, raising code returns `Except`.
-/

set_option maxHeartbeats 1000000

/-- ABCI request method names: the `oneof` variants of the protobuf
`Request` message.  Modelled from the spec: the generated protobuf package
(`abci.pb.tendermint.abci`, produced by `protogen.py`) is not among the
sources; per the spec a Request is a tagged union over exactly these
14 method names.  (`set_option` is a Lean keyword, hence `setOption`.) -/
inductive RName
  | echo | flush | info | setOption | query | check_tx
  | init_chain | begin_block | deliver_tx | end_block | commit
  | list_snapshots | offer_snapshot | load_snapshot_chunk | apply_snapshot_chunk
deriving DecidableEq, Repr

/-- The four handler kinds (`HandlersKind` in `abci.abc.handlers`:
`InfoHandler`, `MempoolHandler`, `ConsensusHandler`, `StateSyncHandler`). -/
inductive HKind
  | info | mempool | consensus | statesync
deriving DecidableEq, Repr

/-- Connection classification: the if-chain of `Protocol.process_request`
(src/abci/protocol.py) executed while `self.handler_type is None`.
`echo` and `flush` (and only they) fall through every branch. -/
def classify : RName → Option HKind
  | .info | .setOption | .query => some .info
  | .init_chain | .begin_block | .deliver_tx | .end_block | .commit => some .consensus
  | .list_snapshots | .offer_snapshot | .load_snapshot_chunk | .apply_snapshot_chunk =>
      some .statesync
  | .check_tx => some .mempool
  | .echo | .flush => none

/-! ## Framing codec -/

/-- Fuel-indexed base-128 varint encoder; `v` fuel always suffices since the
value shrinks by a factor of 128 each step. -/
def encodeVarintFuel : Nat → Nat → List Nat
  | 0, v => [v]
  | fuel + 1, v => if v < 128 then [v] else (v % 128 + 128) :: encodeVarintFuel fuel (v / 128)

/-- Modelled from the spec: `betterproto.encode_varint` (an external helper,
not among the sources) — standard little-endian base-128 varint encoding of
an unsigned integer, continuation bit `0x80` on every byte but the last. -/
def encodeVarint (v : Nat) : List Nat := encodeVarintFuel v v

/-- Modelled from the spec: the buffer-level behaviour of
`betterproto.decode_varint` as the spec's framing codec requires — read a
base-128 varint at offset 0 of the buffer, returning the decoded value and
the number of header bytes consumed; `none` when the buffer ends while the
continuation bit is still set (a trailing truncated header), so that
`data_received` stops and keeps the buffer for the next receive. -/
def decodeVarint : List Nat → Option (Nat × Nat)
  | [] => none
  | b :: rest =>
    if b < 128 then some (b, 1)
    else
      match decodeVarint rest with
      | some (v, c) => some ((b - 128) + 128 * v, c + 1)
      | none => none

/-- Frame encoding from `Protocol.process_response` (src/abci/protocol.py
lines 170-173 and the identical src/tend/abci/protocol.py code): the varint
of `len(data) << 1` followed by the payload bytes. -/
def encodeFrame (p : List Nat) : List Nat := encodeVarint (p.length <<< 1) ++ p

/-- Fuel-indexed frame-extraction loop of `Protocol.data_received`
(src/abci/protocol.py lines 114-124; src/tend/abci/protocol.py has the
identical loop): while the buffer is non-empty, read a varint header,
interpret the payload length as `header >> 1`, and if the whole payload is
present slice it out, emit it and continue on the rest of the buffer;
otherwise stop, keeping the buffer intact.  Returns the emitted payloads in
order and the remaining buffer.  `buf.length` fuel always suffices because
every extracted frame consumes at least one buffer byte. -/
def runFramingFuel : Nat → List Nat → List (List Nat) × List Nat
  | 0, buf => ([], buf)
  | fuel + 1, buf =>
    if buf.isEmpty then ([], buf)
    else
      match decodeVarint buf with
      | none => ([], buf)
      | some (result, pos) =>
        let len := result >>> 1
        if pos + len ≤ buf.length then
          let out := runFramingFuel fuel (buf.drop (pos + len))
          ((buf.drop pos).take len :: out.1, out.2)
        else ([], buf)

/-- The frame-extraction loop of `data_received` run on a buffer. -/
def runFraming (buf : List Nat) : List (List Nat) × List Nat :=
  runFramingFuel buf.length buf

theorem decodeVarint_consumes :
    ∀ buf r p, decodeVarint buf = some (r, p) → 1 ≤ p := by
  intro buf r p h
  cases buf with
  | nil => simp [decodeVarint] at h
  | cons b rest =>
    by_cases hb : b < 128
    · simp [decodeVarint, hb] at h
      omega
    · simp only [decodeVarint, if_neg hb] at h
      cases hrec : decodeVarint rest with
      | none => rw [hrec] at h; exact absurd h (by simp)
      | some vc =>
        rw [hrec] at h
        cases vc with
        | mk v c => simp at h; omega

theorem encodeVarintFuel_congr :
    ∀ f g v, v ≤ f → v ≤ g → encodeVarintFuel f v = encodeVarintFuel g v := by
  intro f
  induction f with
  | zero =>
    intro g v hf _
    interval_cases v
    cases g with
    | zero => rfl
    | succ g => simp [encodeVarintFuel]
  | succ f ih =>
    intro g v hf hg
    by_cases hv : v < 128
    · cases g with
      | zero =>
        have : v = 0 := Nat.le_zero.mp hg
        subst this; simp [encodeVarintFuel]
      | succ g => simp [encodeVarintFuel, hv]
    · cases g with
      | zero => omega
      | succ g =>
        simp only [encodeVarintFuel, if_neg hv]
        have hlt : v / 128 < v := Nat.div_lt_self (by omega) (by omega)
        exact congrArg _ (ih g (v / 128) (by omega) (by omega))

theorem encodeVarint_small {v : Nat} (h : v < 128) : encodeVarint v = [v] := by
  unfold encodeVarint
  cases v with
  | zero => rfl
  | succ v => simp [encodeVarintFuel, h]

theorem encodeVarint_large {v : Nat} (h : 128 ≤ v) :
    encodeVarint v = (v % 128 + 128) :: encodeVarint (v / 128) := by
  unfold encodeVarint
  obtain ⟨w, rfl⟩ : ∃ w, v = w + 1 := ⟨v - 1, by omega⟩
  simp only [encodeVarintFuel, if_neg (by omega : ¬ w + 1 < 128)]
  refine congrArg _ (encodeVarintFuel_congr w ((w + 1) / 128) ((w + 1) / 128) ?_ le_rfl)
  have : (w + 1) / 128 < w + 1 := Nat.div_lt_self (by omega) (by omega)
  omega

theorem decodeVarint_cons_large {b : Nat} (hb : 128 ≤ b) (rest : List Nat) :
    decodeVarint (b :: rest) =
      match decodeVarint rest with
      | some (v, c) => some ((b - 128) + 128 * v, c + 1)
      | none => none := by
  simp [decodeVarint, Nat.not_lt.mpr hb]

/-- Round trip of the varint codec, on any buffer extension. -/
theorem decodeVarint_encodeVarint (v : Nat) (rest : List Nat) :
    decodeVarint (encodeVarint v ++ rest) = some (v, (encodeVarint v).length) := by
  induction v using Nat.strong_induction_on with
  | _ v ih =>
    by_cases hv : v < 128
    · rw [encodeVarint_small hv]
      simp [decodeVarint, hv]
    · rw [encodeVarint_large (by omega), List.cons_append,
        decodeVarint_cons_large (by omega),
        ih (v / 128) (Nat.div_lt_self (by omega) (by omega))]
      have hmd := Nat.mod_add_div v 128
      have hv' : v % 128 + 128 - 128 + 128 * (v / 128) = v := by omega
      simp [hv']
      omega

theorem runFramingFuel_congr :
    ∀ f g buf, buf.length ≤ f → buf.length ≤ g → runFramingFuel f buf = runFramingFuel g buf := by
  intro f
  induction f with
  | zero =>
    intro g buf hf _
    have hb : buf = [] := List.eq_nil_of_length_eq_zero (by omega)
    subst hb
    cases g <;> simp [runFramingFuel]
  | succ f ih =>
    intro g buf hf hg
    cases g with
    | zero =>
      have hb : buf = [] := List.eq_nil_of_length_eq_zero (by omega)
      subst hb
      simp [runFramingFuel]
    | succ g =>
      by_cases hempty : buf.isEmpty = true
      · simp [runFramingFuel, hempty]
      · cases hdec : decodeVarint buf with
        | none => simp [runFramingFuel, hempty, hdec]
        | some rp =>
          obtain ⟨r, p⟩ := rp
          have hp := decodeVarint_consumes buf r p hdec
          by_cases hle : p + (r >>> 1) ≤ buf.length
          · have hlen : (buf.drop (p + (r >>> 1))).length ≤ f := by
              simp only [List.length_drop]; omega
            have hlen' : (buf.drop (p + (r >>> 1))).length ≤ g := by
              simp only [List.length_drop]; omega
            simp only [runFramingFuel, hempty, hdec, Bool.false_eq_true, if_false, if_pos hle]
            rw [ih g (buf.drop (p + (r >>> 1))) hlen hlen']
          · simp [runFramingFuel, hempty, hdec, hle]

theorem encodeVarint_length_pos (v : Nat) : 1 ≤ (encodeVarint v).length := by
  by_cases h : v < 128
  · rw [encodeVarint_small h]; simp
  · rw [encodeVarint_large (by omega)]; simp

/-- Processing one complete frame followed by anything: the loop slices out
the payload and keeps going on the remainder of the buffer. -/
theorem runFraming_frame (p rest : List Nat) :
    runFraming (encodeFrame p ++ rest) = (p :: (runFraming rest).1, (runFraming rest).2) := by
  have hl1 := encodeVarint_length_pos (p.length <<< 1)
  have hbuf : encodeFrame p ++ rest = encodeVarint (p.length <<< 1) ++ (p ++ rest) := by
    simp [encodeFrame]
  have hshift : (p.length <<< 1) >>> 1 = p.length := by
    simp [Nat.shiftLeft_eq, Nat.shiftRight_eq_div_pow]
  rw [runFraming, hbuf]
  obtain ⟨N, hN⟩ : ∃ N, (encodeVarint (p.length <<< 1) ++ (p ++ rest)).length = N + 1 := by
    refine ⟨(encodeVarint (p.length <<< 1) ++ (p ++ rest)).length - 1, ?_⟩
    simp only [List.length_append]
    omega
  have hN' : (encodeVarint (p.length <<< 1)).length + (p.length + rest.length) = N + 1 := by
    simpa using hN
  have hemp : (encodeVarint (p.length <<< 1) ++ (p ++ rest)).isEmpty = false := by
    cases hie : (encodeVarint (p.length <<< 1) ++ (p ++ rest)).isEmpty
    · rfl
    · exfalso
      rw [List.isEmpty_iff] at hie
      rw [hie] at hN
      simp at hN
  rw [hN]
  simp only [runFramingFuel, hemp, Bool.false_eq_true, if_false,
    decodeVarint_encodeVarint, hshift]
  rw [if_pos (by simp only [List.length_append]; omega)]
  have hdrop1 : (encodeVarint (p.length <<< 1) ++ (p ++ rest)).drop
      (encodeVarint (p.length <<< 1)).length = p ++ rest := List.drop_left _ _
  have hdrop2 : (encodeVarint (p.length <<< 1) ++ (p ++ rest)).drop
      ((encodeVarint (p.length <<< 1)).length + p.length) = rest := by
    rw [← List.append_assoc]
    have h2 := List.drop_left (encodeVarint (p.length <<< 1) ++ p) rest
    simpa using h2
  rw [hdrop1, hdrop2, List.take_left]
  rw [runFramingFuel_congr N rest.length rest (by omega) le_rfl]
  rfl

/-- A buffer whose bytes all carry the continuation bit holds only a
truncated varint: the loop stops at once, keeping the buffer. -/
theorem decodeVarint_none_of_cont (h : List Nat) (hcont : ∀ b ∈ h, 128 ≤ b) :
    decodeVarint h = none := by
  induction h with
  | nil => rfl
  | cons b rest ih =>
    rw [decodeVarint_cons_large (hcont b (by simp)), ih (fun x hx => hcont x (by simp [hx]))]

theorem runFraming_stop (h : List Nat) (hcont : ∀ b ∈ h, 128 ≤ b) :
    runFraming h = ([], h) := by
  rw [runFraming]
  cases hL : h.length with
  | zero => simp [runFramingFuel]
  | succ N =>
    simp [runFramingFuel, decodeVarint_none_of_cont h hcont]

/-- Concatenation of the wire encodings of a sequence of payloads. -/
def framesJoin (ps : List (List Nat)) : List Nat := (ps.map encodeFrame).flatten

theorem runFraming_frames_stop (done : List (List Nat)) (h : List Nat)
    (hcont : ∀ b ∈ h, 128 ≤ b) :
    runFraming (framesJoin done ++ h) = (done, h) := by
  induction done with
  | nil => rw [framesJoin]; simp only [List.map_nil, List.flatten_nil, List.nil_append]; exact runFraming_stop h hcont
  | cons d ds ih =>
    have : framesJoin (d :: ds) ++ h = encodeFrame d ++ (framesJoin ds ++ h) := by
      simp [framesJoin]
    rw [this, runFraming_frame, ih]

/-- Every byte of a proper prefix of a varint encoding still has the
continuation bit set. -/
theorem encodeVarint_proper_prefix_cont (v : Nat) :
    ∀ a c, a ++ c = encodeVarint v → c ≠ [] → ∀ x ∈ a, 128 ≤ x := by
  induction v using Nat.strong_induction_on with
  | _ v ih =>
    intro a c hac hc x hx
    by_cases hv : v < 128
    · rw [encodeVarint_small hv] at hac
      cases a with
      | nil => simp at hx
      | cons y ys =>
        simp only [List.cons_append, List.cons.injEq] at hac
        have : ys ++ c = [] := hac.2
        have : c = [] := by
          rcases List.append_eq_nil.mp this with ⟨_, h2⟩
          exact h2
        exact absurd this hc
    · rw [encodeVarint_large (by omega)] at hac
      cases a with
      | nil => simp at hx
      | cons y ys =>
        simp only [List.cons_append, List.cons.injEq] at hac
        rcases List.mem_cons.mp hx with h1 | h2
        · subst h1; omega
        · exact ih (v / 128) (Nat.div_lt_self (by omega) (by omega)) ys c hac.2 hc x h2

/-- C4 counterexample.  The claim states that feeding `encode(p) ++ rest` to
the decoder yields `p` once and leaves `rest` buffered, for EVERY residual
byte string `rest`.  Take `p = []` (the empty payload, legal) and
`rest = encodeFrame [] = [0]` — a residual that is itself a complete frame.
The `data_received` loop keeps decoding as long as whole frames remain, so
it yields the empty payload twice and leaves an empty buffer, not
`([[]], [0])` as the claim demands. -/
theorem C4_counterexample :
    encodeFrame [] = [0] ∧
    runFraming (encodeFrame [] ++ [0]) = ([[], []], []) ∧
    runFraming (encodeFrame [] ++ [0]) ≠ ([[]], [0]) := by
  refine ⟨rfl, by decide, by decide⟩

/-- C4 (amended).  Framing round trip of the `data_received` loop
(src/abci/protocol.py lines 114-124) against `process_response`'s encoding:
for every payload `p` and residual `rest`, decoding `encode(p) ++ rest`
yields `p` followed by whatever complete frames `rest` itself contains,
leaving the undecodable remainder of `rest` buffered; in particular when
`rest` contains no complete frame, exactly `p` is yielded and `rest` stays
in the buffer.  Moreover for every partition of `encode(p)` into `a ++ b`
with `b` non-empty, delivered across two receives in order, the first
receive yields nothing (the buffer keeps `a`) and the second yields exactly
`p` with an empty remainder. -/
theorem C4_framing_round_trip (p rest a b : List Nat)
    (hsplit : encodeFrame p = a ++ b) (hb : b ≠ []) :
    runFraming (encodeFrame p ++ rest) = (p :: (runFraming rest).1, (runFraming rest).2) ∧
    (runFraming rest = ([], rest) → runFraming (encodeFrame p ++ rest) = ([p], rest)) ∧
    runFraming a = ([], a) ∧
    runFraming (a ++ b) = ([p], []) := by
  refine ⟨runFraming_frame p rest, ?_, ?_, ?_⟩
  · intro hrest
    rw [runFraming_frame, hrest]
  · -- the first receive holds a proper prefix of the frame: nothing decodes
    have hsplit' : a ++ b = encodeVarint (p.length <<< 1) ++ p := by
      rw [← hsplit]; rfl
    rcases List.append_eq_append_iff.mp hsplit' with ⟨a', ha1, ha2⟩ | ⟨c', hc1, hc2⟩
    · -- `a` is a prefix of the varint header
      cases ha' : a' with
      | nil =>
        -- a is the whole header; then p must be non-empty (else b = [])
        subst ha'
        simp only [List.append_nil] at ha1
        rw [List.nil_append] at ha2
        have hp : p ≠ [] := by
          intro hpnil
          rw [hpnil] at ha2
          exact hb ha2
        rw [runFraming]
        obtain ⟨N, hN⟩ : ∃ N, a.length = N + 1 := by
          have hl1 := encodeVarint_length_pos (p.length <<< 1)
          rw [ha1] at hl1
          exact ⟨a.length - 1, by omega⟩
        have hemp : a.isEmpty = false := by
          cases hie : a.isEmpty
          · rfl
          · exfalso
            rw [List.isEmpty_iff] at hie
            rw [hie] at hN
            simp at hN
        have hdec : decodeVarint a = some (p.length <<< 1, a.length) := by
          have hdv := decodeVarint_encodeVarint (p.length <<< 1) []
          rw [List.append_nil, ha1] at hdv
          exact hdv
        rw [hN]
        simp only [runFramingFuel, hemp, Bool.false_eq_true, if_false, hdec]
        have hshift : (p.length <<< 1) >>> 1 = p.length := by
          simp [Nat.shiftLeft_eq, Nat.shiftRight_eq_div_pow]
        simp only [hshift]
        rw [if_neg (by
          rw [hN]
          have : 1 ≤ p.length := by
            cases p with
            | nil => exact absurd rfl hp
            | cons _ _ => simp
          omega)]
      | cons y ys =>
        -- a is a proper prefix of the varint: all bytes keep the continuation bit
        refine runFraming_stop a ?_
        intro x hx
        refine encodeVarint_proper_prefix_cont (p.length <<< 1) a a' ha1.symm ?_ x hx
        rw [ha']
        simp
    · -- `a` covers the header and a proper prefix of the payload
      subst hc1
      have hdec : decodeVarint (encodeVarint (p.length <<< 1) ++ c') =
          some (p.length <<< 1, (encodeVarint (p.length <<< 1)).length) :=
        decodeVarint_encodeVarint _ _
      have hshift : (p.length <<< 1) >>> 1 = p.length := by
        simp [Nat.shiftLeft_eq, Nat.shiftRight_eq_div_pow]
      have hplen : p.length = c'.length + b.length := by
        rw [hc2]; simp
      have hblen : 1 ≤ b.length := by
        cases b with
        | nil => exact absurd rfl hb
        | cons _ _ => simp
      rw [runFraming]
      obtain ⟨N, hN⟩ : ∃ N, (encodeVarint (p.length <<< 1) ++ c').length = N + 1 := by
        have := encodeVarint_length_pos (p.length <<< 1)
        refine ⟨(encodeVarint (p.length <<< 1) ++ c').length - 1, ?_⟩
        simp only [List.length_append]
        omega
      have hemp : (encodeVarint (p.length <<< 1) ++ c').isEmpty = false := by
        cases hie : (encodeVarint (p.length <<< 1) ++ c').isEmpty
        · rfl
        · exfalso
          rw [List.isEmpty_iff] at hie
          rw [hie] at hN
          simp at hN
      rw [hN]
      simp only [runFramingFuel, hemp, Bool.false_eq_true, if_false, hdec, hshift]
      rw [if_neg (by
        simp only [List.length_append]
        omega)]
  · rw [← hsplit]
    have := runFraming_frame p []
    rw [List.append_nil] at this
    rw [this]
    rfl

/-- Witness for C4 at a concrete input: `p = [7]`, `rest = [9]` (no complete
frame), split `encodeFrame [7] = [2] ++ [7]`. -/
theorem C4_framing_round_trip_witness :
    runFraming (encodeFrame [7] ++ [9]) = ([[7]], [9]) ∧
    runFraming [2] = ([], [2]) ∧
    runFraming ([2] ++ [7]) = ([[7]], []) := by
  have h := C4_framing_round_trip [7] [9] [2] [7] (by decide) (by decide)
  exact ⟨h.2.1 (by decide), h.2.2.1, h.2.2.2⟩

/-- C5.  A receive sequence whose buffer ends in a trailing partial header —
complete frames followed by a non-empty proper prefix of a varint (every
byte still carrying the continuation bit, at most 9 bytes) — stops the
`data_received` loop without error: the complete frames are all yielded and
the partial header stays buffered untouched; and once the rest of the
header and payload arrive the frame is decoded exactly once. -/
theorem C5_truncated_header (done : List (List Nat)) (h : List Nat)
    (hne : h ≠ []) (hcont : ∀ b ∈ h, 128 ≤ b ∧ b ≤ 255) (hlen : h.length ≤ 9) :
    runFraming (framesJoin done ++ h) = (done, h) ∧
    (∀ tail p, h ++ tail = encodeFrame p → runFraming (h ++ tail) = ([p], [])) := by
  constructor
  · exact runFraming_frames_stop done h (fun b hb => (hcont b hb).1)
  · intro tail p hp
    rw [hp]
    have hfr := runFraming_frame p []
    rw [List.append_nil] at hfr
    rw [hfr]
    rfl

/-- Witness for C5 at a concrete input: one complete frame `[2,5]`, partial
header `[128]` (first byte of the two-byte varint header `[128,1]` of a
64-byte payload), then the remaining header byte and payload arrive. -/
theorem C5_truncated_header_witness :
    runFraming (framesJoin [[5]] ++ [128]) = ([[5]], [128]) ∧
    runFraming ([128] ++ (1 :: List.replicate 64 7)) = ([List.replicate 64 7], []) := by
  have h := C5_truncated_header [[5]] [128] (by decide) (by decide) (by decide)
  exact ⟨h.1, h.2 (1 :: List.replicate 64 7) (List.replicate 64 7) (by decide)⟩

/-! ## Application state (src/abci/ext/common.py) -/

/-- The `AppState` dataclass (src/abci/ext/common.py): block height and
application hash.  `clone` copies the fields (`type(self)(**asdict(self))`). -/
structure AppState where
  block_height : Nat
  app_hash : List Nat
deriving DecidableEq, Repr

/-- `AppState.clone`. -/
def AppState.clone (s : AppState) : AppState := ⟨s.block_height, s.app_hash⟩

/-- `CommonApp.update_app_state` (src/abci/ext/common.py lines 84-92).
`self.__state` is `None` before the first call, hence `Option AppState`.
The method first sets the state to `new_state` when it is unset
(`if not self.__state`); then a strictly greater height installs a clone of
the new state, an equal height with a different `app_hash` raises
`RuntimeError`, and every remaining case (equal height with equal hash, or
a lower height) returns with the stored state untouched.  The result is the
stored state after the call, or the raised error. -/
def update_app_state (state0 : Option AppState) (new_state : AppState) :
    Except String AppState :=
  let cur := state0.getD new_state
  if cur.block_height < new_state.block_height then .ok new_state.clone
  else if new_state.block_height = cur.block_height then
    if new_state.app_hash ≠ cur.app_hash then
      .error "Synchronized block, but app_hash not matched"
    else .ok cur
  else .ok cur

/-! ## Block-hash accumulator (src/tend/abci/bhasher.py) -/

/-- `hashlib.sha256().block_size`, surfaced by `Sha256Wrapper.block_size`. -/
def sha256BlockSize : Nat := 64

/-- The chunking performed by `DummyBlockHasher.write_tx` (lines 102-114):
`[tx_data[n*bs:(n+1)*bs] for n in range(len(tx_data)//bs + 1)]`. -/
def txChunks (tx : List Nat) : List (List Nat) :=
  (List.range (tx.length / sha256BlockSize + 1)).map
    (fun n => (tx.drop (n * sha256BlockSize)).take sha256BlockSize)

/-- `Sha256Wrapper.write` over a list of blocks: hashlib accumulates the
bytes of every `update` call, each block truncated to the block size
(`block[:self.block_size]`); the digest is then a function of the
accumulated byte string.  The digest itself (`hashlib.sha256`, an external
library) is kept as an abstract parameter `H` below. -/
def hasherAccum (blocks : List (List Nat)) : List Nat :=
  blocks.foldl (fun acc b => acc ++ b.take sha256BlockSize) []

/-- `DummyBlockHasher.write_hash`: raise `ValueError` on a duplicate tx
hash — before anything is appended, so a failed call leaves the recorded
list unchanged — otherwise append the hash to the ordered list. -/
def write_hash (tx_hashes : List (List Nat)) (tx_hash : List Nat) :
    Except String (List (List Nat)) :=
  if tx_hash ∈ tx_hashes then .error "Received TX hash duplicate"
  else .ok (tx_hashes ++ [tx_hash])

/-- `DummyBlockHasher.write_tx` (src/tend/abci/bhasher.py lines 102-114):
hash the tx bytes with a fresh hasher fed chunk by chunk, record the digest
via `write_hash`, and return it.  Returns the new recorded-hash list
together with the tx hash. -/
def write_tx (H : List Nat → List Nat) (tx_hashes : List (List Nat)) (tx : List Nat) :
    Except String (List (List Nat) × List Nat) :=
  let tx_hash := H (hasherAccum (txChunks tx))
  match write_hash tx_hashes tx_hash with
  | .ok hs => .ok (hs, tx_hash)
  | .error e => .error e

/-- `DummyBlockHasher.sum` with no prefix: the digest of the recorded
hashes fed to a fresh hasher one `write` each (SHA-256 digests are 32
bytes, under the 64-byte truncation limit). -/
def bhSum (H : List Nat → List Nat) (tx_hashes : List (List Nat)) : List Nat :=
  H (hasherAccum tx_hashes)

theorem hasherAccum_eq_flatten (blocks : List (List Nat)) :
    hasherAccum blocks = (blocks.map (fun b => b.take sha256BlockSize)).flatten := by
  suffices haux : ∀ (l : List (List Nat)) (a : List Nat),
      l.foldl (fun acc b => acc ++ b.take sha256BlockSize) a =
        a ++ (l.map (fun b => b.take sha256BlockSize)).flatten by
    simpa [hasherAccum] using haux blocks []
  intro l
  induction l with
  | nil => intro a; simp
  | cons x xs ih => intro a; simp [ih]

theorem txChunks_flatten :
    ∀ (m : Nat) (tx : List Nat), tx.length / sha256BlockSize = m →
      (txChunks tx).flatten = tx := by
  intro m
  induction m with
  | zero =>
    intro tx hm
    have hlt : tx.length < sha256BlockSize :=
      (Nat.div_eq_zero_iff (by simp [sha256BlockSize])).mp hm
    rw [txChunks, hm]
    simp [List.range_succ, List.take_of_length_le (Nat.le_of_lt hlt)]
  | succ m ih =>
    intro tx hm
    have hbs : 0 < sha256BlockSize := by simp [sha256BlockSize]
    have hge : sha256BlockSize ≤ tx.length := by
      by_contra hlt
      rw [Nat.div_eq_of_lt (by omega)] at hm
      omega
    have hdm := Nat.div_add_mod tx.length sha256BlockSize
    have hmod := Nat.mod_lt tx.length hbs
    have h64 : sha256BlockSize = 64 := rfl
    have hdroplen : (tx.drop sha256BlockSize).length / sha256BlockSize = m := by
      have hlen : (tx.drop sha256BlockSize).length =
          sha256BlockSize * m + tx.length % sha256BlockSize := by
        rw [hm] at hdm
        simp only [List.length_drop]
        rw [h64] at hdm hge ⊢
        omega
      rw [hlen, Nat.mul_add_div hbs, Nat.div_eq_of_lt hmod]
      omega
    have hchunks : txChunks tx = tx.take sha256BlockSize :: txChunks (tx.drop sha256BlockSize) := by
      rw [txChunks, hm, List.range_succ_eq_map, List.map_cons, List.map_map]
      simp only [Nat.zero_mul, List.drop_zero]
      refine congrArg _ ?_
      rw [txChunks, hdroplen]
      refine List.map_congr_left ?_
      intro n _
      simp only [Function.comp_apply, List.drop_drop]
      rw [Nat.succ_mul, Nat.add_comm]
    rw [hchunks, List.flatten_cons, ih (tx.drop sha256BlockSize) hdroplen,
      List.take_append_drop]

/-- The chunk loop of `write_tx` reassembles exactly the tx bytes, so the
digest is taken of precisely `tx`. -/
theorem hasherAccum_txChunks (tx : List Nat) : hasherAccum (txChunks tx) = tx := by
  rw [hasherAccum_eq_flatten]
  have hmap : (txChunks tx).map (fun b => b.take sha256BlockSize) = txChunks tx := by
    conv_rhs => rw [← List.map_id (txChunks tx)]
    refine List.map_congr_left ?_
    intro b hb
    show b.take sha256BlockSize = b
    simp only [txChunks, List.mem_map] at hb
    obtain ⟨n, _, hbn⟩ := hb
    rw [← hbn, List.take_take]
    simp
  rw [hmap]
  exact txChunks_flatten (tx.length / sha256BlockSize) tx rfl

/-! ## Transaction keeper (src/abci/ext/txkeeper.py) -/

/-- `TxKeeper` state: the height recorded by `end_block`
(`self.block_height`) and the recorded tx hashes of the per-block
accumulator (`self.block_hasher._tx_hashes`). -/
structure TxKeeper where
  block_height : Nat
  hashes : List (List Nat)
deriving DecidableEq, Repr

/-- `TxKeeper.end_block` (src/abci/ext/txkeeper.py lines 58-61):
`self.block_height = req.height`. -/
def TxKeeper.end_block (k : TxKeeper) (height : Nat) : TxKeeper :=
  { k with block_height := height }

/-- `TxKeeper.deliver_tx` (src/abci/ext/txkeeper.py lines 51-56): feed
`req.tx` to the block hasher; a duplicate hash propagates the raise. -/
def TxKeeper.deliver_tx (H : List Nat → List Nat) (k : TxKeeper) (tx : List Nat) :
    Except String TxKeeper :=
  match write_tx H k.hashes tx with
  | .ok (hs, _) => .ok { k with hashes := hs }
  | .error e => .error e

/-- `TxKeeper.commit` (src/abci/ext/txkeeper.py lines 66-71): build
`AppState(block_height=self.block_height, app_hash=self.block_hasher.sum())`,
reset the block hasher to a fresh one, call `app.update_app_state`, and
answer `ResponseCommit` with the block's app hash.  Result: the app state
stored after the call, the reset keeper, and the response hash. -/
def TxKeeper.commit (H : List Nat → List Nat) (k : TxKeeper) (app : Option AppState) :
    Except String (AppState × TxKeeper × List Nat) :=
  let app_state : AppState := ⟨k.block_height, bhSum H k.hashes⟩
  match update_app_state app app_state with
  | .ok st => .ok (st, { k with hashes := [] }, app_state.app_hash)
  | .error e => .error e

/-- C8 counterexample.  The claim states `update_app_state` accepts iff the
new height is strictly greater, or equal with an equal hash, and that "in
every other case it fails by raising".  With stored state at height 5 and a
new state at height 3 (a strictly lower height — neither of the accepting
cases), the code takes the final `else`-less fall-through: it returns
normally, leaving the state unchanged, instead of raising. -/
theorem C8_counterexample :
    (3 : Nat) < 5 ∧
    update_app_state (some ⟨5, [1]⟩) ⟨3, [2]⟩ = .ok ⟨5, [1]⟩ := by
  exact ⟨by decide, rfl⟩

/-- C8 (amended).  `update_app_state` installs (a clone of) the new state
iff its height is strictly greater than the stored one (or the store was
still unset, in which case the new state is installed unconditionally);
with an equal height it keeps the stored state, raising exactly when the
hashes differ; with a lower height it silently returns leaving the stored
state unchanged — it does not raise.  Consequently a `TxKeeper.commit`
following `end_block` at height `h` yields a stored state with
`block_height = h` whenever `h` is strictly above the current height (or
the store was unset), and a second commit at the same height with a
different app hash raises the mismatch error. -/
theorem C8_state_monotonicity (cur ns : AppState) (H : List Nat → List Nat)
    (k : TxKeeper) (h : Nat) (capp : AppState) :
    (update_app_state none ns = .ok ns) ∧
    (cur.block_height < ns.block_height →
      update_app_state (some cur) ns = .ok ns.clone) ∧
    (ns.block_height = cur.block_height → ns.app_hash = cur.app_hash →
      update_app_state (some cur) ns = .ok cur) ∧
    (ns.block_height = cur.block_height → ns.app_hash ≠ cur.app_hash →
      update_app_state (some cur) ns =
        .error "Synchronized block, but app_hash not matched") ∧
    (ns.block_height < cur.block_height →
      update_app_state (some cur) ns = .ok cur) ∧
    (capp.block_height < h →
      TxKeeper.commit H (k.end_block h) (some capp) =
        .ok (⟨h, bhSum H k.hashes⟩, ⟨h, []⟩, bhSum H k.hashes)) ∧
    (TxKeeper.commit H (k.end_block h) none =
        .ok (⟨h, bhSum H k.hashes⟩, ⟨h, []⟩, bhSum H k.hashes)) ∧
    (capp.block_height = h → bhSum H k.hashes ≠ capp.app_hash →
      TxKeeper.commit H (k.end_block h) (some capp) =
        .error "Synchronized block, but app_hash not matched") := by
  refine ⟨?_, ?_, ?_, ?_, ?_, ?_, ?_, ?_⟩
  · simp [update_app_state]
  · intro hlt
    simp [update_app_state, hlt]
  · intro heq hhash
    simp [update_app_state, heq, hhash]
  · intro heq hhash
    simp [update_app_state, heq, hhash, Nat.lt_irrefl]
  · intro hlt
    simp only [update_app_state, Option.getD_some]
    rw [if_neg (by omega), if_neg (by omega)]
  · intro hlt
    simp only [TxKeeper.commit, TxKeeper.end_block, update_app_state, Option.getD_some]
    rw [if_pos hlt]
    rfl
  · simp [TxKeeper.commit, TxKeeper.end_block, update_app_state, AppState.clone]
  · intro heq hhash
    simp only [TxKeeper.commit, TxKeeper.end_block, update_app_state, Option.getD_some]
    rw [if_neg (by omega), if_pos (by omega), if_pos (by simpa using hhash)]

/-- Witness for C8 at concrete inputs: an install at a higher height; a
commit over height 0 with `end_block` height 1; and a conflicting commit at
the already-stored height 1 with a different hash. -/
theorem C8_state_monotonicity_witness :
    update_app_state (some ⟨5, [1]⟩) ⟨7, [2]⟩ = .ok ⟨7, [2]⟩ ∧
    TxKeeper.commit (fun l => [l.length + 1]) (TxKeeper.end_block ⟨0, []⟩ 1) (some ⟨0, [9]⟩) =
      .ok (⟨1, [1]⟩, ⟨1, []⟩, [1]) ∧
    TxKeeper.commit (fun l => [l.length + 1]) (TxKeeper.end_block ⟨0, []⟩ 1) (some ⟨1, [9]⟩) =
      .error "Synchronized block, but app_hash not matched" := by
  have h1 := C8_state_monotonicity ⟨5, [1]⟩ ⟨7, [2]⟩ (fun l => [l.length + 1]) ⟨0, []⟩ 1 ⟨0, [9]⟩
  have h2 := C8_state_monotonicity ⟨5, [1]⟩ ⟨7, [2]⟩ (fun l => [l.length + 1]) ⟨0, []⟩ 1 ⟨1, [9]⟩
  refine ⟨h1.2.1 (by decide), ?_, ?_⟩
  · have hc := h1.2.2.2.2.2.1 (by decide)
    simpa [bhSum, hasherAccum] using hc
  · have hc := h2.2.2.2.2.2.2.2 (by decide) (by decide)
    exact hc

/-- C9.  `write_tx` hashes exactly the tx bytes — the chunk loop reassembles
`tx`, so the returned digest is `H tx` where `H` is the digest function of
the underlying hasher (`hashlib.sha256` by default) — and appends that
digest to the ordered recorded list; recording the same hash twice fails on
the second call with the duplicate error, the raise happening before the
append so the recorded list is left unchanged; in particular a second
`deliver_tx` with an identical payload within the block fails. -/
theorem C9_block_hasher_spec (H : List Nat → List Nat) (hashes : List (List Nat))
    (tx h : List Nat) (k : TxKeeper) :
    (H tx ∉ hashes → write_tx H hashes tx = .ok (hashes ++ [H tx], H tx)) ∧
    (H tx ∈ hashes → write_tx H hashes tx = .error "Received TX hash duplicate") ∧
    (h ∉ hashes →
      write_hash hashes h = .ok (hashes ++ [h]) ∧
      write_hash (hashes ++ [h]) h = .error "Received TX hash duplicate") ∧
    (H tx ∉ k.hashes →
      TxKeeper.deliver_tx H k tx = .ok { k with hashes := k.hashes ++ [H tx] } ∧
      TxKeeper.deliver_tx H { k with hashes := k.hashes ++ [H tx] } tx =
        .error "Received TX hash duplicate") := by
  have hacc := hasherAccum_txChunks tx
  refine ⟨?_, ?_, ?_, ?_⟩
  · intro hmem
    simp [write_tx, write_hash, hacc, hmem]
  · intro hmem
    simp [write_tx, write_hash, hacc, hmem]
  · intro hmem
    constructor
    · simp [write_hash, hmem]
    · simp [write_hash]
  · intro hmem
    constructor
    · simp [TxKeeper.deliver_tx, write_tx, write_hash, hacc, hmem]
    · simp [TxKeeper.deliver_tx, write_tx, write_hash, hacc]

/-- Witness for C9 at a concrete input: digest `H l = 99 :: l`, empty
recorded list, tx `[1, 2]`. -/
theorem C9_block_hasher_spec_witness :
    write_tx (fun l => 99 :: l) [] [1, 2] = .ok ([[99, 1, 2]], [99, 1, 2]) ∧
    write_hash [[99, 1, 2]] [99, 1, 2] = .error "Received TX hash duplicate" ∧
    TxKeeper.deliver_tx (fun l => 99 :: l) ⟨0, []⟩ [1, 2] = .ok ⟨0, [[99, 1, 2]]⟩ := by
  have h1 := C9_block_hasher_spec (fun l => 99 :: l) [] [1, 2] [99, 1, 2] (⟨0, []⟩ : TxKeeper)
  refine ⟨h1.1 (by decide), ?_, ?_⟩
  · exact (h1.2.2.1 (by decide)).2
  · exact (h1.2.2.2 (by decide)).1

/-! ## Class-attribute sharing (src/abci/protocol.py, src/abci/server.py,
src/tend/abci/server.py) -/

/-- The class attribute `tasks: deque[...] = deque()` declared in the class
body of `ResponseOrderedTaskProcessor` (src/abci/protocol.py lines 63-65)
and likewise of `RequestOrderedTaskProcessor` (lines 41-44).  A class-body
assignment is evaluated once, when the class object is created, yielding a
single deque stored on the class object; `Protocol.__init__` creates a
fresh processor *instance* per connection, but no method ever assigns
`self.tasks`, so attribute lookup on every instance falls back to this one
class-level deque and `self.tasks.append(...)` mutates it in place.
Entries are modelled as (owning connection id, work item id): the source
stores `(coro, done_callback)` pairs whose callback closes over the owning
connection. -/
structure ProcClassAttrs where
  tasks : List (Nat × Nat)
deriving DecidableEq, Repr

/-- The attribute read `self.tasks` on processor instance `inst`: the
instance dictionary never holds a `tasks` key, so the lookup yields the
class-level deque whatever the instance. -/
def procTasksView (cls : ProcClassAttrs) (inst : Nat) : List (Nat × Nat) :=
  cls.tasks

/-- `self.tasks.append((coro, done_callback))` executed by
`MessageTaskProcessor.__call__` on instance `inst` for work item `w`:
in-place mutation of the shared class-level deque. -/
def procEnqueue (cls : ProcClassAttrs) (inst : Nat) (w : Nat) : ProcClassAttrs :=
  { cls with tasks := cls.tasks ++ [(inst, w)] }

/-- Per-connection `Protocol` state that IS instance-owned: `self.buffer +=
data` in `data_received` is an assignment statement, so the first receive
creates an instance attribute shadowing the class default `b''`; `handler`,
`handler_type` and `transport` are likewise assigned per instance. -/
structure ProtocolInst where
  buffer : List Nat
deriving DecidableEq, Repr

/-- `self.buffer += data` on one connection's own instance attribute. -/
def protocolAppendBuffer (c : ProtocolInst) (data : List Nat) : ProtocolInst :=
  { c with buffer := c.buffer ++ data }

/-- C7 evaluated at the failing input (the claim that each connection owns
its own task queue).  Connections 1 and 2 each hold their own processor
instance, yet both read the same class-level deque: before any enqueue
connection 2's queue view is empty, and after connection 1 enqueues one
work item, connection 2's view — through its own processor instance —
already contains connection 1's entry.  The receive buffer, by contrast,
is genuinely per-connection: appending to one instance's buffer is a pure
update of that instance. -/
theorem C7_shared_queue_eval :
    procTasksView ⟨[]⟩ 2 = [] ∧
    procTasksView (procEnqueue ⟨[]⟩ 1 0) 2 = [(1, 0)] ∧
    procTasksView (procEnqueue ⟨[]⟩ 1 0) 1 = procTasksView (procEnqueue ⟨[]⟩ 1 0) 2 ∧
    protocolAppendBuffer ⟨[]⟩ [7] = ⟨[7]⟩ := by
  exact ⟨rfl, rfl, rfl, rfl⟩

/-- Class attributes of `Server`: both src/abci/server.py (lines 13-17) and
src/tend/abci/server.py (lines 16-20) declare `connections: set['Protocol']
= set()` in the class body (tend also `tasks: set['Task'] = set()`), while
`Server.__init__` assigns only `_srv`, `logger`, `app` (and `_stopping`).
Hence every `Server` instance reads the same class-level sets, and
`Protocol.connection_made` / `connection_lost` mutate them through whatever
server instance the connection holds.  Sets are modelled as duplicate-free
lists via membership-guarded append. -/
structure ServerClassAttrs where
  connections : List Nat
  tasks : List Nat
deriving DecidableEq, Repr

/-- `self.connections` read through server instance `inst`. -/
def serverConnectionsView (cls : ServerClassAttrs) (inst : Nat) : List Nat :=
  cls.connections

/-- `self.tasks` read through server instance `inst`. -/
def serverTasksView (cls : ServerClassAttrs) (inst : Nat) : List Nat :=
  cls.tasks

/-- `Protocol.connection_made` (src/abci/protocol.py lines 103-112):
`self.server_state.connections.add(self)` — a set add on the shared
class-level set, reached through server instance `inst`. -/
def connection_made (cls : ServerClassAttrs) (inst : Nat) (c : Nat) : ServerClassAttrs :=
  if c ∈ cls.connections then cls
  else { cls with connections := cls.connections ++ [c] }

/-- tend `Protocol.process_request`: `self.server_state.tasks.add(task)`. -/
def serverAddTask (cls : ServerClassAttrs) (inst : Nat) (t : Nat) : ServerClassAttrs :=
  if t ∈ cls.tasks then cls
  else { cls with tasks := cls.tasks ++ [t] }

/-- `Server.stop` (src/abci/server.py): `for connection in self.connections:
connection.transport.close()` — the connections it closes, read through
instance `inst`. -/
def serverStopCloses (cls : ServerClassAttrs) (inst : Nat) : List Nat :=
  cls.connections

/-- tend `Server.stop`: `tasks = [*self.tasks]; [task.cancel() for task in
tasks]` — the tasks it cancels, read through instance `inst`. -/
def serverStopCancels (cls : ServerClassAttrs) (inst : Nat) : List Nat :=
  cls.tasks

/-- C10.  All `Server` instances share one connection registry and one task
set: the registry read through any two instances is the same list, a
connection registered by `connection_made` through one instance is visible
through — and closed by `stop` of — every other instance, and a task added
through one instance is cancelled by any other instance's `stop`. -/
theorem C10_shared_server_registry (cls : ServerClassAttrs) (s1 s2 c t : Nat) :
    serverConnectionsView cls s1 = serverConnectionsView cls s2 ∧
    serverTasksView cls s1 = serverTasksView cls s2 ∧
    c ∈ serverConnectionsView (connection_made cls s1 c) s2 ∧
    c ∈ serverStopCloses (connection_made cls s1 c) s2 ∧
    t ∈ serverStopCancels (serverAddTask cls s1 t) s2 := by
  refine ⟨rfl, rfl, ?_, ?_, ?_⟩
  · by_cases hc : c ∈ cls.connections <;>
      simp [connection_made, serverConnectionsView, hc]
  · by_cases hc : c ∈ cls.connections <;>
      simp [connection_made, serverStopCloses, hc]
  · by_cases ht : t ∈ cls.tasks <;>
      simp [serverAddTask, serverStopCancels, ht]

/-! ## Ordered task processors (src/abci/protocol.py) -/

/-- Observable events of a connection's message processing.  `enq i n`:
`data_received` parsed request number `i` (0-based arrival order) with
method name `n` and handed its work coroutine to the connection's
processor (`Protocol.process_request`); `start i n`: the work's task was
created (`asyncio.create_task`) — the handler invocation of request `i`
begins; `finish i n`: that invocation completed; `emit i n`: its
completion callback ran, i.e. `process_task_done` wrote the framed
response for request `i` to the transport. -/
inductive PEv
  | enq (i : Nat) (n : RName)
  | start (i : Nat) (n : RName)
  | finish (i : Nat) (n : RName)
  | emit (i : Nat) (n : RName)
deriving DecidableEq, Repr

/-- Pair the elements of a list with consecutive indices starting at `k`. -/
def idxFrom {α : Type} (k : Nat) : List α → List (Nat × α)
  | [] => []
  | a :: rest => (k, a) :: idxFrom (k + 1) rest

theorem idxFrom_append {α : Type} (k : Nat) (l1 l2 : List α) :
    idxFrom k (l1 ++ l2) = idxFrom k l1 ++ idxFrom (k + l1.length) l2 := by
  induction l1 generalizing k with
  | nil => simp [idxFrom]
  | cons a rest ih =>
    simp only [List.cons_append, idxFrom, List.length_cons]
    have harith : k + 1 + rest.length = k + (rest.length + 1) := by omega
    rw [show rest.append l2 = rest ++ l2 from rfl, ih (k + 1), harith]

theorem idxFrom_eq_nil_iff {α : Type} (k : Nat) (l : List α) :
    idxFrom k l = [] ↔ l = [] := by
  cases l <;> simp [idxFrom]

theorem idxFrom_eq_cons {α : Type} {k j : Nat} {n : α} {l : List α}
    {rest : List (Nat × α)} (h : idxFrom k l = (j, n) :: rest) :
    j = k ∧ l = n :: l.tail ∧ rest = idxFrom (k + 1) l.tail := by
  cases l with
  | nil => simp [idxFrom] at h
  | cons a t =>
    simp only [idxFrom, List.cons.injEq, Prod.mk.injEq] at h
    obtain ⟨⟨hk, hn⟩, hrest⟩ := h
    exact ⟨hk.symm, by simp [hn], hrest.symm⟩

/-- The names of the requests handed to a processor, in arrival order. -/
def enqNames (tr : List PEv) : List RName :=
  tr.filterMap fun e => match e with | .enq _ n => some n | _ => none

/-- The (index, name) pairs of the requests, in arrival order. -/
def enqs (tr : List PEv) : List (Nat × RName) :=
  tr.filterMap fun e => match e with | .enq i n => some (i, n) | _ => none

/-- The responses written to the transport, in write order. -/
def emits (tr : List PEv) : List (Nat × RName) :=
  tr.filterMap fun e => match e with | .emit i n => some (i, n) | _ => none

/-- The start/finish/emit events: execution and emission behaviour. -/
def runEvents (tr : List PEv) : List PEv :=
  tr.filter fun e => match e with | .enq _ _ => false | _ => true

/-- How many handler invocations have completed. -/
def finishCount (tr : List PEv) : Nat :=
  (tr.filterMap fun e => match e with | .finish i n => some (i, n) | _ => none).length

theorem enqNames_append (a b : List PEv) : enqNames (a ++ b) = enqNames a ++ enqNames b := by
  simp [enqNames]

theorem enqs_append (a b : List PEv) : enqs (a ++ b) = enqs a ++ enqs b := by
  simp [enqs]

theorem emits_append (a b : List PEv) : emits (a ++ b) = emits a ++ emits b := by
  simp [emits]

theorem runEvents_append (a b : List PEv) :
    runEvents (a ++ b) = runEvents a ++ runEvents b := by
  simp [runEvents]

theorem finishCount_append (a b : List PEv) :
    finishCount (a ++ b) = finishCount a + finishCount b := by
  simp [finishCount]

/-- The fully serialized execution pattern over request names `l`: for each
request in order, its handler starts, finishes, and its response is
written, before the next one starts. -/
def serialBlocks (l : List RName) : List PEv :=
  ((idxFrom 0 l).map fun p => [PEv.start p.1 p.2, PEv.finish p.1 p.2, PEv.emit p.1 p.2]).flatten

theorem serialBlocks_concat (l : List RName) (n : RName) :
    serialBlocks (l ++ [n]) = serialBlocks l ++
      [PEv.start l.length n, PEv.finish l.length n, PEv.emit l.length n] := by
  simp [serialBlocks, idxFrom_append, idxFrom]

/-- The request-ordered discipline as seen by a process whose ONE
`RequestOrderedTaskProcessor` instance is the only one ever constructed
(a single Consensus connection).  Caution: `tasks: deque = deque()` and
`current_task: Task = None` are CLASS attributes (src/abci/protocol.py
lines 43-44); the deque is created once at class-definition time and only
mutated in place, so ALL instances of the class share it — the faithful
multi-instance semantics is `MReq` below, and `mreqSim` / `mreq_run_sim`
prove that with a single client instance the shared deque behaves exactly
as this per-instance projection.  `current` is `self.current_task`
(rebound by assignment, hence genuinely per-instance, carrying the request
number and name of the running work), `queue` is the pending `tasks` deque
of (request number, name) — the deque stores `(coro, done_callback)` pairs
whose coroutine is the work for that request and whose callback writes its
response — and `nextId` counts the requests handed over so far. -/
structure ReqProc where
  current : Option (Nat × RName)
  queue : List (Nat × RName)
  nextId : Nat
  trace : List PEv
deriving DecidableEq, Repr

/-- Fresh processor: nothing running, empty deque. -/
def ReqProc.init : ReqProc := ⟨none, [], 0, []⟩

/-- `RequestOrderedTaskProcessor._turn` (lines 54-60): when no task is
running and the deque is non-empty, pop the head and create its task —
the next handler invocation starts. -/
def ReqProc.turn (s : ReqProc) : ReqProc :=
  match s.current with
  | some _ => s
  | none =>
    match s.queue with
    | [] => s
    | (i, n) :: rest =>
      { s with current := some (i, n), queue := rest, trace := s.trace ++ [.start i n] }

/-- `RequestOrderedTaskProcessor.__call__` (lines 45-48): append the work
and its callback to the deque; if nothing is running, `_turn`. -/
def ReqProc.call (s : ReqProc) (n : RName) : ReqProc :=
  let s' : ReqProc := { s with queue := s.queue ++ [(s.nextId, n)],
                               nextId := s.nextId + 1,
                               trace := s.trace ++ [.enq s.nextId n] }
  match s.current with
  | none => s'.turn
  | some _ => s'

/-- Completion of the running work, as the event loop delivers it: the
work finishes, then its two done callbacks run in registration order —
`_done` clears `current_task` and invokes the completion callback
(`process_task_done`, lines 160-167, which writes the framed response via
`process_response`), then `_turn` starts the next queued work.  asyncio
schedules a task's done callbacks back to back when it completes, so the
pair runs with nothing of this connection in between.  A completion step
with no running task is a no-op (the loop has nothing to complete). -/
def ReqProc.complete (s : ReqProc) : ReqProc :=
  match s.current with
  | none => s
  | some (i, n) =>
    ReqProc.turn { s with current := none, trace := s.trace ++ [.finish i n, .emit i n] }

/-- Scheduler actions for the request-ordered discipline: a request is
received (`data_received` → `process_request` → processor `__call__`), or
the event loop completes the running handler. -/
inductive ReqAct
  | call (n : RName)
  | complete
deriving DecidableEq, Repr

def ReqProc.step (s : ReqProc) : ReqAct → ReqProc
  | .call n => s.call n
  | .complete => s.complete

/-- A run of the request-ordered processor over a scheduler script. -/
def runReq (acts : List ReqAct) : ReqProc :=
  acts.foldl ReqProc.step ReqProc.init

/-- Inductive invariant of the request-ordered processor: requests are
numbered consecutively in arrival order; responses have been written for
exactly the first `finishCount` requests, in order; the running work (if
any) is request number `finishCount`; the deque holds exactly the later
requests in order; and the execution trace is fully serialized — per
request: start, finish, emit, then the next start. -/
def reqInvariant (s : ReqProc) : Prop :=
  enqs s.trace = idxFrom 0 (enqNames s.trace) ∧
  (enqNames s.trace).length = s.nextId ∧
  emits s.trace = idxFrom 0 ((enqNames s.trace).take (finishCount s.trace)) ∧
  (match s.current with
   | some (i, n) =>
       i = finishCount s.trace ∧
       finishCount s.trace < (enqNames s.trace).length ∧
       (enqNames s.trace).drop (finishCount s.trace) =
         n :: (enqNames s.trace).drop (finishCount s.trace + 1) ∧
       s.queue = idxFrom (finishCount s.trace + 1)
         ((enqNames s.trace).drop (finishCount s.trace + 1))
   | none =>
       s.queue = [] ∧ finishCount s.trace = (enqNames s.trace).length) ∧
  runEvents s.trace = serialBlocks ((enqNames s.trace).take (finishCount s.trace)) ++
    (match s.current with
     | some (i, n) => [PEv.start i n]
     | none => [])

theorem reqInvariant_init : reqInvariant ReqProc.init := by
  simp [reqInvariant, ReqProc.init, enqs, enqNames, emits, runEvents, finishCount,
    idxFrom, serialBlocks]

theorem enqNames_enq (i : Nat) (n : RName) : enqNames [PEv.enq i n] = [n] := by
  simp [enqNames]

theorem enqNames_start (i : Nat) (n : RName) : enqNames [PEv.start i n] = [] := by
  simp [enqNames]

theorem enqNames_finish (i : Nat) (n : RName) : enqNames [PEv.finish i n] = [] := by
  simp [enqNames]

theorem enqNames_emit (i : Nat) (n : RName) : enqNames [PEv.emit i n] = [] := by
  simp [enqNames]

theorem enqs_enq (i : Nat) (n : RName) : enqs [PEv.enq i n] = [(i, n)] := by
  simp [enqs]

theorem enqs_start (i : Nat) (n : RName) : enqs [PEv.start i n] = [] := by
  simp [enqs]

theorem emits_enq (i : Nat) (n : RName) : emits [PEv.enq i n] = [] := by
  simp [emits]

theorem emits_start (i : Nat) (n : RName) : emits [PEv.start i n] = [] := by
  simp [emits]

theorem emits_finish (i : Nat) (n : RName) : emits [PEv.finish i n] = [] := by
  simp [emits]

theorem emits_emit (i : Nat) (n : RName) : emits [PEv.emit i n] = [(i, n)] := by
  simp [emits]

theorem finishCount_enq (i : Nat) (n : RName) : finishCount [PEv.enq i n] = 0 := by
  simp [finishCount]

theorem finishCount_start (i : Nat) (n : RName) : finishCount [PEv.start i n] = 0 := by
  simp [finishCount]

theorem finishCount_finish (i : Nat) (n : RName) : finishCount [PEv.finish i n] = 1 := by
  simp [finishCount]

theorem finishCount_emit (i : Nat) (n : RName) : finishCount [PEv.emit i n] = 0 := by
  simp [finishCount]

theorem runEvents_enq (i : Nat) (n : RName) : runEvents [PEv.enq i n] = [] := by
  simp [runEvents]

theorem runEvents_start (i : Nat) (n : RName) : runEvents [PEv.start i n] = [PEv.start i n] := by
  simp [runEvents]

theorem runEvents_finish (i : Nat) (n : RName) :
    runEvents [PEv.finish i n] = [PEv.finish i n] := by
  simp [runEvents]

theorem runEvents_emit (i : Nat) (n : RName) : runEvents [PEv.emit i n] = [PEv.emit i n] := by
  simp [runEvents]

theorem reqInvariant_call (s : ReqProc) (n : RName) (h : reqInvariant s) :
    reqInvariant (s.call n) := by
  obtain ⟨h1, h2, h3, h4, h5⟩ := h
  cases hcur : s.current with
  | some p =>
    obtain ⟨i, m⟩ := p
    rw [hcur] at h4 h5
    obtain ⟨hi, hlt, hdrop, hq⟩ := h4
    have hcall : s.call n =
        { s with queue := s.queue ++ [(s.nextId, n)],
                 nextId := s.nextId + 1,
                 trace := s.trace ++ [.enq s.nextId n] } := by
      unfold ReqProc.call
      rw [hcur]
    rw [hcall]
    refine ⟨?_, ?_, ?_, ?_, ?_⟩
    · simp only [enqs_append, enqNames_append, h1, enqNames_enq]
      rw [idxFrom_append]
      simp [enqs, h2, idxFrom]
    · simp [enqNames_append, enqNames_enq, h2]
    · simp only [emits_append, enqNames_append, enqNames_enq, finishCount_append]
      have hfc : finishCount [PEv.enq s.nextId n] = 0 := by simp [finishCount]
      rw [hfc, Nat.add_zero,
        List.take_append_of_le_length (by omega : finishCount s.trace ≤ (enqNames s.trace).length)]
      simpa [emits] using h3
    · simp only [hcur, enqNames_append, enqNames_enq, finishCount_append]
      have hfc : finishCount [PEv.enq s.nextId n] = 0 := by simp [finishCount]
      rw [hfc, Nat.add_zero]
      refine ⟨hi, by simp; omega, ?_, ?_⟩
      · rw [List.drop_append_of_le_length (by omega),
          List.drop_append_of_le_length (by omega), hdrop]
        simp
      · rw [List.drop_append_of_le_length (by omega), idxFrom_append, hq]
        have hidx : finishCount s.trace + 1 +
            ((enqNames s.trace).drop (finishCount s.trace + 1)).length = s.nextId := by
          simp only [List.length_drop]
          omega
        rw [hidx]
        simp [idxFrom]
    · simp only [hcur, runEvents_append, enqNames_append, enqNames_enq, finishCount_append]
      have hfc : finishCount [PEv.enq s.nextId n] = 0 := by simp [finishCount]
      have hre : runEvents [PEv.enq s.nextId n] = [] := by simp [runEvents]
      rw [hfc, Nat.add_zero, hre, List.append_nil,
        List.take_append_of_le_length (by omega : finishCount s.trace ≤ (enqNames s.trace).length)]
      exact h5
  | none =>
    rw [hcur] at h4 h5
    obtain ⟨hq, hd⟩ := h4
    have hcall : s.call n =
        { s with current := some (s.nextId, n),
                 queue := [],
                 nextId := s.nextId + 1,
                 trace := s.trace ++ [.enq s.nextId n] ++ [.start s.nextId n] } := by
      unfold ReqProc.call ReqProc.turn
      rw [hcur]
      simp [hq]
    rw [hcall]
    have hple : finishCount s.trace ≤ (enqNames s.trace).length := by omega
    refine ⟨?_, ?_, ?_, ?_, ?_⟩
    · simp only [List.append_assoc, enqs_append, enqNames_append, enqs_enq, enqs_start,
        enqNames_enq, enqNames_start, List.append_nil, h1]
      rw [idxFrom_append]
      simp [h2, idxFrom]
    · simp only [List.append_assoc, enqNames_append, enqNames_enq, enqNames_start,
        List.append_nil, List.length_append, List.length_cons, List.length_nil, h2]
    · simp only [List.append_assoc, emits_append, emits_enq, emits_start, List.append_nil,
        finishCount_append, finishCount_enq, finishCount_start, Nat.add_zero,
        enqNames_append, enqNames_enq, enqNames_start]
      rw [List.take_append_of_le_length hple]
      exact h3
    · simp only [List.append_assoc, finishCount_append, finishCount_enq, finishCount_start,
        Nat.add_zero, enqNames_append, enqNames_enq, enqNames_start, List.append_nil]
      refine ⟨by omega, by simp; omega, ?_, ?_⟩
      · rw [hd, List.drop_append_of_le_length (le_refl _), List.drop_length]
        have hln : (enqNames s.trace).length + 1 = ((enqNames s.trace) ++ [n]).length := by
          simp
        rw [hln, List.drop_length]
        simp
      · rw [hd]
        have hln : (enqNames s.trace).length + 1 = ((enqNames s.trace) ++ [n]).length := by
          simp
        rw [hln, List.drop_length]
        simp [idxFrom]
    · simp only [List.append_assoc, runEvents_append, runEvents_enq, runEvents_start,
        finishCount_append, finishCount_enq, finishCount_start, Nat.add_zero,
        enqNames_append, enqNames_enq, enqNames_start, List.append_nil]
      rw [List.take_append_of_le_length hple, h5, hd, List.take_length]
      simp

theorem enqNames_fe (i : Nat) (n : RName) :
    enqNames [PEv.finish i n, PEv.emit i n] = [] := by simp [enqNames]

theorem enqs_fe (i : Nat) (n : RName) :
    enqs [PEv.finish i n, PEv.emit i n] = [] := by simp [enqs]

theorem emits_fe (i : Nat) (n : RName) :
    emits [PEv.finish i n, PEv.emit i n] = [(i, n)] := by simp [emits]

theorem finishCount_fe (i : Nat) (n : RName) :
    finishCount [PEv.finish i n, PEv.emit i n] = 1 := by simp [finishCount]

theorem runEvents_fe (i : Nat) (n : RName) :
    runEvents [PEv.finish i n, PEv.emit i n] = [PEv.finish i n, PEv.emit i n] := by
  simp [runEvents]

theorem reqInvariant_complete (s : ReqProc) (h : reqInvariant s) :
    reqInvariant s.complete := by
  obtain ⟨h1, h2, h3, h4, h5⟩ := h
  cases hcur : s.current with
  | none =>
    have hid : s.complete = s := by
      unfold ReqProc.complete
      rw [hcur]
    rw [hid]
    exact ⟨h1, h2, h3, h4, h5⟩
  | some p =>
    obtain ⟨i, m⟩ := p
    rw [hcur] at h4 h5
    obtain ⟨hi, hlt, hdrop, hq⟩ := h4
    subst hi
    have hns : enqNames s.trace = (enqNames s.trace).take (finishCount s.trace) ++
        m :: (enqNames s.trace).drop (finishCount s.trace + 1) := by
      conv_lhs => rw [← List.take_append_drop (finishCount s.trace) (enqNames s.trace)]
      rw [hdrop]
    have hlen_take : ((enqNames s.trace).take (finishCount s.trace)).length =
        finishCount s.trace := List.length_take_of_le (le_of_lt hlt)
    have htake : (enqNames s.trace).take (finishCount s.trace + 1) =
        (enqNames s.trace).take (finishCount s.trace) ++ [m] := by
      conv_lhs => rw [hns]
      rw [show finishCount s.trace + 1 =
        ((enqNames s.trace).take (finishCount s.trace)).length + 1 from by rw [hlen_take]]
      rw [List.take_append]
      simp
    cases hqe : s.queue with
    | nil =>
      have hdropnil : (enqNames s.trace).drop (finishCount s.trace + 1) = [] := by
        rw [hqe] at hq
        exact (idxFrom_eq_nil_iff _ _).mp hq.symm
      have hdlen : (enqNames s.trace).length = finishCount s.trace + 1 := by
        have hle := List.drop_eq_nil_iff.mp hdropnil
        omega
      have hcomp : s.complete =
          { s with current := none,
                   trace := s.trace ++
                     [.finish (finishCount s.trace) m, .emit (finishCount s.trace) m] } := by
        unfold ReqProc.complete ReqProc.turn
        rw [hcur]
        simp [hqe]
      rw [hcomp]
      refine ⟨?_, ?_, ?_, ?_, ?_⟩
      · simp only [enqs_append, enqs_fe, enqNames_append, enqNames_fe, List.append_nil]
        exact h1
      · simp only [enqNames_append, enqNames_fe, List.append_nil]
        exact h2
      · simp only [emits_append, emits_fe, enqNames_append, enqNames_fe, List.append_nil,
          finishCount_append, finishCount_fe]
        rw [htake, idxFrom_append, hlen_take, h3]
        simp [idxFrom]
      · simp only [finishCount_append, finishCount_fe, enqNames_append, enqNames_fe,
          List.append_nil]
        exact ⟨hqe, by omega⟩
      · simp only [runEvents_append, runEvents_fe, enqNames_append, enqNames_fe,
          List.append_nil, finishCount_append, finishCount_fe]
        rw [htake, serialBlocks_concat, hlen_take, h5]
        simp
    | cons e rest =>
      obtain ⟨j, n2⟩ := e
      rw [hqe] at hq
      obtain ⟨hj, hd2', hrest⟩ := idxFrom_eq_cons hq.symm
      subst hj
      have htail : ((enqNames s.trace).drop (finishCount s.trace + 1)).tail =
          (enqNames s.trace).drop (finishCount s.trace + 1 + 1) :=
        List.tail_drop _ _
      have hd2 : (enqNames s.trace).drop (finishCount s.trace + 1) =
          n2 :: (enqNames s.trace).drop (finishCount s.trace + 1 + 1) := by
        rw [← htail]
        exact hd2'
      have hlt2 : finishCount s.trace + 1 < (enqNames s.trace).length := by
        by_contra hge
        rw [List.drop_eq_nil_of_le (by omega)] at hd2
        exact absurd hd2 (by simp)
      have hrest2 : rest = idxFrom (finishCount s.trace + 1 + 1)
          ((enqNames s.trace).drop (finishCount s.trace + 1 + 1)) := by
        rw [hrest, htail]
      have hcomp : s.complete =
          { s with current := some (finishCount s.trace + 1, n2),
                   queue := rest,
                   trace := s.trace ++
                     [.finish (finishCount s.trace) m, .emit (finishCount s.trace) m] ++
                     [.start (finishCount s.trace + 1) n2] } := by
        unfold ReqProc.complete ReqProc.turn
        rw [hcur]
        simp [hqe]
      rw [hcomp]
      refine ⟨?_, ?_, ?_, ?_, ?_⟩
      · simp only [List.append_assoc, enqs_append, enqs_fe, enqs_start, enqNames_append,
          enqNames_fe, enqNames_start, List.append_nil]
        exact h1
      · simp only [List.append_assoc, enqNames_append, enqNames_fe, enqNames_start,
          List.append_nil]
        exact h2
      · simp only [List.append_assoc, emits_append, emits_fe, emits_start, enqNames_append,
          enqNames_fe, enqNames_start, List.append_nil, finishCount_append, finishCount_fe,
          finishCount_start]
        rw [htake, idxFrom_append, hlen_take, h3]
        simp [idxFrom]
      · simp only [List.append_assoc, finishCount_append, finishCount_fe, finishCount_start,
          enqNames_append, enqNames_fe, enqNames_start, List.append_nil]
        refine ⟨trivial, by omega, ?_, ?_⟩
        · simpa using hd2
        · simpa using hrest2
      · simp only [List.append_assoc, runEvents_append, runEvents_fe, runEvents_start,
          enqNames_append, enqNames_fe, enqNames_start, List.append_nil, finishCount_append,
          finishCount_fe, finishCount_start]
        rw [htake, serialBlocks_concat, hlen_take, h5]
        simp

theorem idxFrom_length {α : Type} : ∀ (k : Nat) (l : List α), (idxFrom k l).length = l.length := by
  intro k l
  induction l generalizing k with
  | nil => rfl
  | cons x xs ih => simp [idxFrom, ih]

theorem idxFrom_get_mem {α : Type} :
    ∀ (l : List α) (k n : Nat) (h : n < l.length), (k + n, l.get ⟨n, h⟩) ∈ idxFrom k l := by
  intro l
  induction l with
  | nil => intro k n h; simp at h
  | cons x xs ih =>
    intro k n h
    cases n with
    | zero => simp [idxFrom]
    | succ n' =>
      simp only [idxFrom, List.mem_cons]
      right
      have harith : k + (n' + 1) = k + 1 + n' := by omega
      rw [harith]
      exact ih (k + 1) n' (by simpa using h)

theorem mem_idxFrom {α : Type} :
    ∀ (l : List α) (k : Nat) (p : Nat × α), p ∈ idxFrom k l →
      ∃ n, ∃ h : n < l.length, p = (k + n, l.get ⟨n, h⟩) := by
  intro l
  induction l with
  | nil => intro k p hp; simp [idxFrom] at hp
  | cons x xs ih =>
    intro k p hp
    simp only [idxFrom, List.mem_cons] at hp
    rcases hp with hp | hp
    · exact ⟨0, by simp, by simpa using hp⟩
    · obtain ⟨n, hn, hpn⟩ := ih (k + 1) p hp
      refine ⟨n + 1, by simpa using hn, ?_⟩
      rw [hpn]
      have harith : k + 1 + n = k + (n + 1) := by omega
      rw [harith]
      rfl

theorem idxFrom_pair_sublist {α : Type} :
    ∀ (l : List α) (k i j : Nat) (hij : i < j) (hj : j < l.length),
      [(k + i, l.get ⟨i, Nat.lt_trans hij hj⟩), (k + j, l.get ⟨j, hj⟩)].Sublist
        (idxFrom k l) := by
  intro l
  induction l with
  | nil => intro k i j hij hj; simp at hj
  | cons x xs ih =>
    intro k i j hij hj
    cases i with
    | zero =>
      cases j with
      | zero => omega
      | succ j' =>
        simp only [idxFrom, Nat.add_zero]
        refine List.Sublist.cons₂ _ (List.singleton_sublist.mpr ?_)
        have harith : k + (j' + 1) = k + 1 + j' := by omega
        have hmem := idxFrom_get_mem xs (k + 1) j' (by simpa using hj)
        rw [harith]
        exact hmem
    | succ i' =>
      cases j with
      | zero => omega
      | succ j' =>
        simp only [idxFrom]
        refine List.Sublist.cons _ ?_
        have ha1 : k + (i' + 1) = k + 1 + i' := by omega
        have ha2 : k + (j' + 1) = k + 1 + j' := by omega
        rw [ha1, ha2]
        exact ih (k + 1) i' j' (by omega) (by simpa using hj)

theorem idxFrom_split {α : Type} (k : Nat) (l : List α) (A B : List (Nat × α))
    (h : A ++ B = idxFrom k l) :
    A = idxFrom k (l.take A.length) ∧ B = idxFrom (k + A.length) (l.drop A.length) := by
  have hlenAB : A.length + B.length = l.length := by
    have := congrArg List.length h
    simp [idxFrom_length] at this
    omega
  have hAle : A.length ≤ l.length := by omega
  have hsplit : idxFrom k l = idxFrom k (l.take A.length) ++
      idxFrom (k + A.length) (l.drop A.length) := by
    conv_lhs => rw [← List.take_append_drop A.length l]
    rw [idxFrom_append, List.length_take_of_le hAle]
  rw [hsplit] at h
  have hlen : A.length = (idxFrom k (l.take A.length)).length := by
    rw [idxFrom_length, List.length_take_of_le hAle]
  exact List.append_inj h hlen


theorem emits_length_le {tr : List PEv}
    (h : emits tr = idxFrom 0 ((enqNames tr).take (emits tr).length)) :
    (emits tr).length ≤ (enqNames tr).length := by
  have hlen := congrArg List.length h
  rw [idxFrom_length, List.length_take] at hlen
  omega

theorem enqNames_es (i : Nat) (n : RName) :
    enqNames [PEv.enq i n, PEv.start i n] = [n] := by simp [enqNames]

theorem enqs_es (i : Nat) (n : RName) :
    enqs [PEv.enq i n, PEv.start i n] = [(i, n)] := by simp [enqs]

theorem emits_es (i : Nat) (n : RName) :
    emits [PEv.enq i n, PEv.start i n] = [] := by simp [emits]


theorem enqs_finish (i : Nat) (n : RName) : enqs [PEv.finish i n] = [] := by
  simp [enqs]


theorem runReq_invariant (acts : List ReqAct) : reqInvariant (runReq acts) := by
  induction acts using List.reverseRecOn with
  | nil => exact reqInvariant_init
  | append_singleton l a ih =>
    rw [runReq, List.foldl_append, List.foldl_cons, List.foldl_nil]
    cases a with
    | call n => exact reqInvariant_call _ n ih
    | complete => exact reqInvariant_complete _ ih

theorem req_emits_eq (acts : List ReqAct) :
    emits (runReq acts).trace =
      idxFrom 0 ((enqNames (runReq acts).trace).take (emits (runReq acts).trace).length) := by
  obtain ⟨h1, h2, h3, h4, h5⟩ := runReq_invariant acts
  have hfle : finishCount (runReq acts).trace ≤ (enqNames (runReq acts).trace).length := by
    cases hc : (runReq acts).current with
    | some p =>
      obtain ⟨i, n⟩ := p
      rw [hc] at h4
      exact le_of_lt h4.2.1
    | none =>
      rw [hc] at h4
      omega
  have hlen : (emits (runReq acts).trace).length = finishCount (runReq acts).trace := by
    rw [h3, idxFrom_length, List.length_take_of_le hfle]
  rw [hlen]
  exact h3

/-! ## The shared class-level task deque (src/abci/protocol.py lines 41-81)

`RequestOrderedTaskProcessor.tasks` (line 44, with `current_task` at line
43) and `ResponseOrderedTaskProcessor.tasks` (line 65) are class
attributes: the `deque()` is created once when the class body runs, and
the methods only mutate it in place (`append`, `popleft`, indexing), never
rebind it, so every instance of the class — the engine creates one
processor instance per connection — works on the same deque.
`current_task` on the other hand is rebound by assignment
(`self.current_task = ...`), which creates an instance attribute, so it is
genuinely per-instance (reading it before the first assignment sees the
class-level `None`).  The models below carry the one shared deque plus the
per-instance/per-connection state, with a global event log whose events
are tagged by the connection they belong to. -/

/-- The events of connection `c` in a tagged event log. -/
def connTrace (c : Nat) (tr : List (Nat × PEv)) : List PEv :=
  tr.filterMap fun e => if e.1 = c then some e.2 else none

theorem connTrace_append (c : Nat) (a b : List (Nat × PEv)) :
    connTrace c (a ++ b) = connTrace c a ++ connTrace c b := by
  simp [connTrace]

theorem connTrace_own (c : Nat) (e : PEv) : connTrace c [(c, e)] = [e] := by
  simp [connTrace]

theorem connTrace_other (c c' : Nat) (e : PEv) (h : c' ≠ c) :
    connTrace c [(c', e)] = [] := by
  simp [connTrace, h]

/-- Pointwise update of a function, for the per-instance attributes. -/
def updf {α : Type} (f : Nat → α) (c : Nat) (v : α) : Nat → α :=
  fun c' => if c' = c then v else f c'

theorem updf_eq {α : Type} (f : Nat → α) (c : Nat) (v : α) : updf f c v c = v := by
  simp [updf]

theorem updf_ne {α : Type} (f : Nat → α) (c c' : Nat) (v : α) (h : c' ≠ c) :
    updf f c v c' = f c' := by
  simp [updf, h]

/-- One process's `RequestOrderedTaskProcessor` instances — one per
Consensus connection, indexed by connection id — and their ONE shared
class-level work deque (src/abci/protocol.py lines 41-60).  `tasks` is the
shared deque holding (connection, request number on that connection,
name) work items in global arrival order; `current c` is instance `c`'s
`current_task` (per-instance, initially the class-level `None`);
`nextId c` numbers connection `c`'s requests; `gtrace` is the global
event log, each event tagged with the connection whose request the work
serves (that connection's `process_task_done` closure is the stored
`done_callback`, so the response is written to that connection's
transport whichever instance ran the work). -/
structure MReq where
  tasks : List (Nat × Nat × RName)
  current : Nat → Option (Nat × Nat × RName)
  nextId : Nat → Nat
  gtrace : List (Nat × PEv)

def MReq.init : MReq := ⟨[], fun _ => none, fun _ => 0, []⟩

/-- `_turn` (lines 54-60) run by instance `c`: when instance `c`'s
`current_task` is `None` and the shared deque is non-empty, it pops the
GLOBAL head — possibly another connection's work — creates its task
(the handler invocation starts) and holds it as its current task. -/
def MReq.turn (s : MReq) (c : Nat) : MReq :=
  match s.current c with
  | some _ => s
  | none =>
    match s.tasks with
    | [] => s
    | w :: rest =>
      { s with tasks := rest, current := updf s.current c (some w),
               gtrace := s.gtrace ++ [(w.1, .start w.2.1 w.2.2)] }

/-- `__call__` (lines 46-49) on instance `c`: append the work to the
shared deque; if this instance holds no running task, `_turn`. -/
def MReq.call (s : MReq) (c : Nat) (n : RName) : MReq :=
  match s.current c with
  | none =>
    MReq.turn { s with tasks := s.tasks ++ [(c, s.nextId c, n)],
                       nextId := updf s.nextId c (s.nextId c + 1),
                       gtrace := s.gtrace ++ [(c, .enq (s.nextId c) n)] } c
  | some _ =>
    { s with tasks := s.tasks ++ [(c, s.nextId c, n)],
             nextId := updf s.nextId c (s.nextId c + 1),
             gtrace := s.gtrace ++ [(c, .enq (s.nextId c) n)] }

/-- The event loop completes the task held by instance `c` (a no-op if it
holds none): the work `w` finishes, `_done` clears the instance's
`current_task` and runs `w`'s completion callback — writing `w`'s
response to `w`'s own connection — and then `_turn` starts the next work
from the shared deque on this instance. -/
def MReq.complete (s : MReq) (c : Nat) : MReq :=
  match s.current c with
  | none => s
  | some w =>
    MReq.turn { s with current := updf s.current c none,
                       gtrace := s.gtrace ++ [(w.1, .finish w.2.1 w.2.2),
                         (w.1, .emit w.2.1 w.2.2)] } c

/-- Scheduler actions: connection `c` receives a request, or the event
loop completes the task instance `c` is holding. -/
inductive MReqAct
  | recv (c : Nat) (n : RName)
  | complete (c : Nat)
deriving DecidableEq, Repr

/-- The connection an action involves. -/
def MReqAct.conn : MReqAct → Nat
  | .recv c _ => c
  | .complete c => c

def MReq.stepAct (s : MReq) : MReqAct → MReq
  | .recv c n => s.call c n
  | .complete c => s.complete c

/-- A run of the shared request-ordered discipline over a script. -/
def runMReq (acts : List MReqAct) : MReq :=
  acts.foldl MReq.stepAct MReq.init

/-- The script's MReq actions translated to the single-instance model. -/
def backAct : MReqAct → ReqAct
  | .recv _ n => .call n
  | .complete _ => .complete

/-- Correspondence between the single-instance projection and the shared
model when connection 0 is the only client of the class-level deque. -/
def mreqSim (r : ReqProc) (m : MReq) : Prop :=
  m.tasks = r.queue.map (fun p => (0, p.1, p.2)) ∧
  m.current 0 = r.current.map (fun p => (0, p.1, p.2)) ∧
  m.nextId 0 = r.nextId ∧
  m.gtrace = r.trace.map (fun e => (0, e))

theorem mreqSim_init : mreqSim ReqProc.init MReq.init :=
  ⟨rfl, rfl, rfl, rfl⟩

theorem mreqSim_turn (r : ReqProc) (m : MReq) (h : mreqSim r m) :
    mreqSim r.turn (m.turn 0) := by
  obtain ⟨h1, h2, h3, h4⟩ := h
  unfold ReqProc.turn MReq.turn
  rw [h2, h1]
  cases r.current with
  | some p => exact ⟨h1, h2, h3, h4⟩
  | none =>
    cases r.queue with
    | nil => exact ⟨h1, h2, h3, h4⟩
    | cons p rest =>
      obtain ⟨i, n⟩ := p
      refine ⟨rfl, by simp [updf], h3, by simp [h4]⟩

theorem mreqSim_call (r : ReqProc) (m : MReq) (n : RName) (h : mreqSim r m) :
    mreqSim (r.call n) (m.call 0 n) := by
  obtain ⟨h1, h2, h3, h4⟩ := h
  unfold ReqProc.call MReq.call
  rw [h2]
  cases hc : r.current with
  | some p =>
    rw [hc] at h2
    refine ⟨by simp [h1, h3], h2, by simp [updf, h3], by simp [h4, h3]⟩
  | none =>
    rw [hc] at h2
    apply mreqSim_turn
    refine ⟨by simp [h1, h3], h2, by simp [updf, h3], by simp [h4, h3]⟩

theorem mreqSim_complete (r : ReqProc) (m : MReq) (h : mreqSim r m) :
    mreqSim r.complete (m.complete 0) := by
  obtain ⟨h1, h2, h3, h4⟩ := h
  unfold ReqProc.complete MReq.complete
  rw [h2]
  cases r.current with
  | none => exact ⟨h1, h2, h3, h4⟩
  | some p =>
    obtain ⟨i, n⟩ := p
    apply mreqSim_turn
    refine ⟨h1, by simp [updf], h3, by simp [h4]⟩

theorem mreq_run_sim (acts : List MReqAct) (h : ∀ a ∈ acts, MReqAct.conn a = 0) :
    mreqSim (runReq (acts.map backAct)) (runMReq acts) := by
  induction acts using List.reverseRecOn with
  | nil => exact mreqSim_init
  | append_singleton as a ih =>
    have has : ∀ x ∈ as, MReqAct.conn x = 0 := fun x hx => h x (by simp [hx])
    have ha : MReqAct.conn a = 0 := h a (by simp)
    rw [runMReq, List.foldl_append, List.foldl_cons, List.foldl_nil,
      List.map_append, runReq, List.foldl_append]
    have hpre1 : List.foldl MReq.stepAct MReq.init as = runMReq as := rfl
    have hpre2 : List.foldl ReqProc.step ReqProc.init (as.map backAct) =
        runReq (as.map backAct) := rfl
    rw [hpre1, hpre2]
    cases a with
    | recv c n =>
      have hc : c = 0 := ha
      subst hc
      exact mreqSim_call _ _ n (ih has)
    | complete c =>
      have hc : c = 0 := ha
      subst hc
      exact mreqSim_complete _ _ (ih has)

theorem connTrace_map_zero (l : List PEv) :
    connTrace 0 (l.map fun e => ((0 : Nat), e)) = l := by
  induction l with
  | nil => rfl
  | cons e rest ih =>
    simp only [List.map_cons, connTrace, List.filterMap_cons] at ih ⊢
    simpa using ih

/-- With a single Consensus connection (all script actions on connection
0), the shared-deque run projects exactly onto the single-instance model:
connection 0's event trace and running work coincide with `ReqProc`'s. -/
theorem mreq_single_trace (acts : List MReqAct) (h : ∀ a ∈ acts, MReqAct.conn a = 0) :
    connTrace 0 (runMReq acts).gtrace = (runReq (acts.map backAct)).trace ∧
    (runMReq acts).current 0 =
      (runReq (acts.map backAct)).current.map (fun p => (0, p.1, p.2)) := by
  obtain ⟨-, h2, -, h4⟩ := mreq_run_sim acts h
  exact ⟨by rw [h4, connTrace_map_zero], h2⟩

theorem connTrace_own_pair (c : Nat) (e1 e2 : PEv) :
    connTrace c [(c, e1), (c, e2)] = [e1, e2] := by
  simp [connTrace]

theorem connTrace_other_pair (c c' : Nat) (e1 e2 : PEv) (h : c' ≠ c) :
    connTrace c [(c', e1), (c', e2)] = [] := by
  simp [connTrace, h]

/-- One process's `ResponseOrderedTaskProcessor` instances — the engine
creates one per connection — and their ONE shared class-level deque
(src/abci/protocol.py lines 63-81; `tasks: deque = deque()` at line 65 is
a class attribute, mutated in place and never rebound).  `tasks` holds
(connection, request number on that connection, name, task done?) entries
in global creation order; `nextId c` numbers connection `c`'s requests;
`gtrace` is the global event log with events tagged by connection. -/
structure MResp where
  tasks : List (Nat × Nat × RName × Bool)
  nextId : Nat → Nat
  gtrace : List (Nat × PEv)

def MResp.init : MResp := ⟨[], fun _ => 0, []⟩

/-- `_turn` (lines 72-81), run by whichever instance's task completed:
drain the shared deque from the head while the head's task is done,
invoking each popped entry's stored callback — which writes that entry's
framed response to the entry's OWN connection. -/
def mrespDrain : List (Nat × Nat × RName × Bool) → List (Nat × PEv) →
    List (Nat × Nat × RName × Bool) × List (Nat × PEv)
  | (c, i, n, true) :: rest, tr => mrespDrain rest (tr ++ [(c, .emit i n)])
  | q, tr => (q, tr)

/-- `__call__` (lines 67-70) on connection `c`'s instance:
`asyncio.create_task(coro)` starts the work immediately and the (task,
callback) pair is appended to the shared deque. -/
def MResp.call (s : MResp) (c : Nat) (n : RName) : MResp :=
  { s with tasks := s.tasks ++ [(c, s.nextId c, n, false)],
           nextId := updf s.nextId c (s.nextId c + 1),
           gtrace := s.gtrace ++ [(c, .enq (s.nextId c) n),
             (c, .start (s.nextId c) n)] }

/-- `task.done()` flips to true for connection `c`'s request `i`. -/
def mmarkDone : List (Nat × Nat × RName × Bool) → Nat → Nat →
    List (Nat × Nat × RName × Bool)
  | [], _, _ => []
  | e :: rest, c, i =>
    (if e.1 = c ∧ e.2.1 = i then (e.1, e.2.1, e.2.2.1, true) else e) ::
      mmarkDone rest c i

/-- The event loop completes connection `c`'s request-`i` task (if present
and not yet done): the task becomes done and its done callback runs
`_turn`, draining the head-run of completed entries of the shared deque
into response writes on their respective connections. -/
def MResp.complete (s : MResp) (c i : Nat) : MResp :=
  match s.tasks.find? (fun e => e.1 == c && e.2.1 == i) with
  | some (_, _, n, false) =>
    { s with
      tasks := (mrespDrain (mmarkDone s.tasks c i)
        (s.gtrace ++ [(c, .finish i n)])).1,
      gtrace := (mrespDrain (mmarkDone s.tasks c i)
        (s.gtrace ++ [(c, .finish i n)])).2 }
  | _ => s

/-- Scheduler actions for the shared response-ordered discipline. -/
inductive MRespAct
  | recv (c : Nat) (n : RName)
  | complete (c i : Nat)
deriving DecidableEq, Repr

def MResp.stepAct (s : MResp) : MRespAct → MResp
  | .recv c n => s.call c n
  | .complete c i => s.complete c i

/-- A run of the shared response-ordered discipline over a script. -/
def runMResp (acts : List MRespAct) : MResp :=
  acts.foldl MResp.stepAct MResp.init

/-- Projection of a deque entry to (request number, name). -/
def mProj (e : Nat × Nat × RName × Bool) : Nat × RName := (e.2.1, e.2.2.1)

/-- Per-connection inductive invariant of the shared response-ordered
discipline: each connection's requests are numbered consecutively in its
own arrival order, its responses written so far are exactly a prefix of
its requests in arrival order, and the shared deque, filtered to that
connection, holds exactly its remaining requests in order. -/
def mrespInv (s : MResp) : Prop :=
  ∀ c : Nat,
    enqs (connTrace c s.gtrace) = idxFrom 0 (enqNames (connTrace c s.gtrace)) ∧
    (enqNames (connTrace c s.gtrace)).length = s.nextId c ∧
    emits (connTrace c s.gtrace) =
      idxFrom 0 ((enqNames (connTrace c s.gtrace)).take
        (emits (connTrace c s.gtrace)).length) ∧
    (s.tasks.filter (fun e => e.1 == c)).map mProj =
      idxFrom (emits (connTrace c s.gtrace)).length
        ((enqNames (connTrace c s.gtrace)).drop
          (emits (connTrace c s.gtrace)).length)

theorem mrespInv_init : mrespInv MResp.init := by
  intro c
  simp [MResp.init, connTrace, enqs, enqNames, emits, idxFrom]

theorem mrespInv_call (s : MResp) (c : Nat) (n : RName) (h : mrespInv s) :
    mrespInv (s.call c n) := by
  intro c'
  obtain ⟨h1, h2, h3, h4⟩ := h c'
  have hele := emits_length_le h3
  unfold MResp.call
  by_cases hcc : c' = c
  · subst hcc
    have htr : connTrace c' (s.gtrace ++ [(c', .enq (s.nextId c') n),
        (c', .start (s.nextId c') n)]) =
        connTrace c' s.gtrace ++ [.enq (s.nextId c') n, .start (s.nextId c') n] := by
      rw [connTrace_append, connTrace_own_pair]
    refine ⟨?_, ?_, ?_, ?_⟩
    · show enqs (connTrace c' (s.gtrace ++ _)) = _
      rw [htr]
      simp only [enqs_append, enqNames_append, enqs_es, enqNames_es, h1]
      rw [idxFrom_append]
      simp [h2, idxFrom]
    · show (enqNames (connTrace c' (s.gtrace ++ _))).length = updf s.nextId c' _ c'
      rw [htr, updf_eq]
      simp only [enqNames_append, enqNames_es, List.length_append, List.length_cons,
        List.length_nil, h2]
    · show emits (connTrace c' (s.gtrace ++ _)) = _
      rw [htr]
      simp only [emits_append, emits_es, List.append_nil, enqNames_append, enqNames_es]
      rw [List.take_append_of_le_length hele]
      exact h3
    · show ((s.tasks ++ [(c', s.nextId c', n, false)]).filter _).map mProj = _
      rw [htr, List.filter_append]
      have hnew : ([((c' : Nat), s.nextId c', n, false)].filter
          (fun e => e.1 == c')) = [(c', s.nextId c', n, false)] := by simp
      rw [hnew, List.map_append]
      simp only [emits_append, emits_es, List.append_nil, enqNames_append, enqNames_es,
        h4]
      rw [List.drop_append_of_le_length hele, idxFrom_append]
      have hidx : (emits (connTrace c' s.gtrace)).length +
          ((enqNames (connTrace c' s.gtrace)).drop
            (emits (connTrace c' s.gtrace)).length).length = s.nextId c' := by
        simp only [List.length_drop]
        omega
      rw [hidx]
      simp [mProj, idxFrom]
  · have htr : connTrace c' (s.gtrace ++ [(c, .enq (s.nextId c) n),
        (c, .start (s.nextId c) n)]) = connTrace c' s.gtrace := by
      rw [connTrace_append, connTrace_other_pair c' c _ _ (Ne.symm hcc)]
      simp
    have hfil : ((s.tasks ++ [((c : Nat), s.nextId c, n, false)]).filter
        (fun e => e.1 == c')) = s.tasks.filter (fun e => e.1 == c') := by
      rw [List.filter_append]
      have : ([((c : Nat), s.nextId c, n, false)].filter
          (fun e => e.1 == c')) = [] := by
        simp [Ne.symm hcc]
      rw [this, List.append_nil]
    refine ⟨?_, ?_, ?_, ?_⟩
    · show enqs (connTrace c' (s.gtrace ++ _)) = _
      rw [htr]
      exact h1
    · show (enqNames (connTrace c' (s.gtrace ++ _))).length = updf s.nextId c _ c'
      rw [htr, updf_ne _ _ _ _ hcc]
      exact h2
    · show emits (connTrace c' (s.gtrace ++ _)) = _
      rw [htr]
      exact h3
    · show ((s.tasks ++ _).filter _).map mProj = _
      rw [htr, hfil]
      exact h4

theorem mrespDrain_spec :
    ∀ (q : List (Nat × Nat × RName × Bool)) (tr : List (Nat × PEv)),
      ∃ popped kept, q = popped ++ kept ∧
        mrespDrain q tr =
          (kept, tr ++ popped.map (fun e => (e.1, PEv.emit e.2.1 e.2.2.1))) := by
  intro q
  induction q with
  | nil => intro tr; exact ⟨[], [], by simp, by simp [mrespDrain]⟩
  | cons e rest ih =>
    intro tr
    obtain ⟨c, i, n, b⟩ := e
    cases b with
    | true =>
      obtain ⟨popped, kept, hq, hdr⟩ := ih (tr ++ [(c, .emit i n)])
      refine ⟨(c, i, n, true) :: popped, kept, by simp [hq], ?_⟩
      rw [show mrespDrain ((c, i, n, true) :: rest) tr =
        mrespDrain rest (tr ++ [(c, .emit i n)]) from rfl, hdr]
      simp
    | false =>
      exact ⟨[], (c, i, n, false) :: rest, by simp, by simp [mrespDrain]⟩

theorem mmarkDone_filter_proj (q : List (Nat × Nat × RName × Bool)) (c i c' : Nat) :
    ((mmarkDone q c i).filter (fun e => e.1 == c')).map mProj =
      (q.filter (fun e => e.1 == c')).map mProj := by
  induction q with
  | nil => rfl
  | cons e rest ih =>
    obtain ⟨ec, ei, en, eb⟩ := e
    by_cases hm : ec = c ∧ ei = i
    · obtain ⟨hm1, hm2⟩ := hm
      subst hm1
      subst hm2
      by_cases hf : ec = c'
      · subst hf
        simp [mmarkDone, List.filter_cons, mProj, ih]
      · simp [mmarkDone, List.filter_cons, hf, ih]
    · by_cases hf : ec = c'
      · subst hf
        simp [mmarkDone, List.filter_cons, if_neg hm, mProj, ih]
      · simp [mmarkDone, List.filter_cons, if_neg hm, hf, ih]

theorem connTrace_map_emit (c : Nat) (l : List (Nat × Nat × RName × Bool)) :
    connTrace c (l.map fun e => (e.1, PEv.emit e.2.1 e.2.2.1)) =
      (l.filter (fun e => e.1 == c)).map (fun e => PEv.emit e.2.1 e.2.2.1) := by
  induction l with
  | nil => rfl
  | cons x xs ih =>
    by_cases hx : x.1 = c
    · simp [connTrace, List.filter_cons, hx] at ih ⊢
      exact ih
    · simp [connTrace, List.filter_cons, hx] at ih ⊢
      exact ih

theorem emits_tag_emit (l : List (Nat × Nat × RName × Bool)) :
    emits (l.map fun e => PEv.emit e.2.1 e.2.2.1) = l.map mProj := by
  induction l with
  | nil => rfl
  | cons x xs ih =>
    simp [emits, mProj] at ih ⊢
    exact ih

theorem enqNames_tag_emit (l : List (Nat × Nat × RName × Bool)) :
    enqNames (l.map fun e => PEv.emit e.2.1 e.2.2.1) = [] := by
  induction l with
  | nil => rfl
  | cons x xs ih => simpa [enqNames] using ih

theorem enqs_tag_emit (l : List (Nat × Nat × RName × Bool)) :
    enqs (l.map fun e => PEv.emit e.2.1 e.2.2.1) = [] := by
  induction l with
  | nil => rfl
  | cons x xs ih => simpa [enqs] using ih

theorem mrespInv_complete (s : MResp) (c i : Nat) (h : mrespInv s) :
    mrespInv (s.complete c i) := by
  cases hfind : s.tasks.find? (fun e => e.1 == c && e.2.1 == i) with
  | none =>
    have hstep : s.complete c i = s := by
      unfold MResp.complete
      rw [hfind]
    rw [hstep]
    exact h
  | some e =>
    obtain ⟨c0, i0, n, b⟩ := e
    cases b with
    | true =>
      have hstep : s.complete c i = s := by
        unfold MResp.complete
        rw [hfind]
      rw [hstep]
      exact h
    | false =>
      obtain ⟨popped, kept, hq, hdr⟩ :=
        mrespDrain_spec (mmarkDone s.tasks c i) (s.gtrace ++ [(c, .finish i n)])
      have hstep0 : s.complete c i = { s with tasks := kept, gtrace := (s.gtrace ++ [(c, PEv.finish i n)]) ++ popped.map (fun e => (e.1, PEv.emit e.2.1 e.2.2.1)) } := by
        unfold MResp.complete
        rw [hfind]
        show { s with tasks := (mrespDrain (mmarkDone s.tasks c i) (s.gtrace ++ [(c, PEv.finish i n)])).1, gtrace := (mrespDrain (mmarkDone s.tasks c i) (s.gtrace ++ [(c, PEv.finish i n)])).2 } = { s with tasks := kept, gtrace := (s.gtrace ++ [(c, PEv.finish i n)]) ++ popped.map (fun e => (e.1, PEv.emit e.2.1 e.2.2.1)) }
        rw [hdr]
      rw [hstep0]
      intro c'
      obtain ⟨h1, h2, h3, h4⟩ := h c'
      have hele := emits_length_le h3
      have hF : connTrace c' [((c : Nat), PEv.finish i n)] =
          (if c' = c then [PEv.finish i n] else []) := by
        by_cases hcc : c' = c
        · subst hcc
          rw [if_pos rfl, connTrace_own]
        · rw [if_neg hcc, connTrace_other c' c _ (Ne.symm hcc)]
      have hFnames : enqNames (connTrace c' [((c : Nat), PEv.finish i n)]) = [] := by
        rw [hF]
        by_cases hcc : c' = c
        · rw [if_pos hcc]
          exact enqNames_finish i n
        · rw [if_neg hcc]
          rfl
      have hFemits : emits (connTrace c' [((c : Nat), PEv.finish i n)]) = [] := by
        rw [hF]
        by_cases hcc : c' = c
        · rw [if_pos hcc]
          simp [emits]
        · rw [if_neg hcc]
          rfl
      have hFenqs : enqs (connTrace c' [((c : Nat), PEv.finish i n)]) = [] := by
        rw [hF]
        by_cases hcc : c' = c
        · rw [if_pos hcc]
          exact enqs_finish i n
        · rw [if_neg hcc]
          rfl
      have hct : connTrace c' ((s.gtrace ++ [((c : Nat), PEv.finish i n)]) ++
          popped.map (fun e => (e.1, PEv.emit e.2.1 e.2.2.1))) =
          (connTrace c' s.gtrace ++ connTrace c' [((c : Nat), PEv.finish i n)]) ++
            (popped.filter (fun e => e.1 == c')).map
              (fun e => PEv.emit e.2.1 e.2.2.1) := by
        rw [connTrace_append, connTrace_append, connTrace_map_emit]
      have hnames' : enqNames (connTrace c' ((s.gtrace ++ [((c : Nat), PEv.finish i n)]) ++
          popped.map (fun e => (e.1, PEv.emit e.2.1 e.2.2.1)))) =
          enqNames (connTrace c' s.gtrace) := by
        rw [hct, enqNames_append, enqNames_append, hFnames, enqNames_tag_emit]
        simp
      have hemits' : emits (connTrace c' ((s.gtrace ++ [((c : Nat), PEv.finish i n)]) ++
          popped.map (fun e => (e.1, PEv.emit e.2.1 e.2.2.1)))) =
          emits (connTrace c' s.gtrace) ++
            (popped.filter (fun e => e.1 == c')).map mProj := by
        rw [hct, emits_append, emits_append, hFemits, emits_tag_emit]
        simp
      have henqs' : enqs (connTrace c' ((s.gtrace ++ [((c : Nat), PEv.finish i n)]) ++
          popped.map (fun e => (e.1, PEv.emit e.2.1 e.2.2.1)))) =
          enqs (connTrace c' s.gtrace) := by
        rw [hct, enqs_append, enqs_append, hFenqs, enqs_tag_emit]
        simp
      have hproj : (popped.filter (fun e => e.1 == c')).map mProj ++
          (kept.filter (fun e => e.1 == c')).map mProj =
          idxFrom (emits (connTrace c' s.gtrace)).length
            ((enqNames (connTrace c' s.gtrace)).drop
              (emits (connTrace c' s.gtrace)).length) := by
        rw [← List.map_append, ← List.filter_append, ← hq, mmarkDone_filter_proj]
        exact h4
      have hsplit := idxFrom_split _ _ _ _ hproj
      rw [List.length_map] at hsplit
      obtain ⟨hpop, hkeep⟩ := hsplit
      refine ⟨?_, ?_, ?_, ?_⟩
      · rw [henqs', hnames']
        exact h1
      · rw [hnames']
        exact h2
      · rw [hemits', hnames']
        have hlen2 : (emits (connTrace c' s.gtrace) ++
            (popped.filter (fun e => e.1 == c')).map mProj).length =
            (emits (connTrace c' s.gtrace)).length +
              (popped.filter (fun e => e.1 == c')).length := by
          simp
        rw [hlen2, List.take_add, idxFrom_append, List.length_take_of_le hele,
          Nat.zero_add, ← h3, ← hpop]
      · rw [hnames', hemits']
        have hlen2 : (emits (connTrace c' s.gtrace) ++
            (popped.filter (fun e => e.1 == c')).map mProj).length =
            (emits (connTrace c' s.gtrace)).length +
              (popped.filter (fun e => e.1 == c')).length := by
          simp
        rw [hlen2, hkeep, List.drop_drop]

theorem runMResp_inv (acts : List MRespAct) : mrespInv (runMResp acts) := by
  induction acts using List.reverseRecOn with
  | nil => exact mrespInv_init
  | append_singleton as a ih =>
    rw [runMResp, List.foldl_append, List.foldl_cons, List.foldl_nil]
    have hpre : List.foldl MResp.stepAct MResp.init as = runMResp as := rfl
    rw [hpre]
    cases a with
    | recv c n => exact mrespInv_call _ c n ih
    | complete c i => exact mrespInv_complete _ c i ih

/-- C1 (amended).  On the current engine (src/abci/protocol.py), handler
invocations of a Consensus connection are strictly serialized PROVIDED it
is the process's only Consensus connection — the standard deployment:
Tendermint opens exactly one consensus connection.  Because
`RequestOrderedTaskProcessor.tasks` is one class-level deque shared by
every instance, "only Consensus connection" means its processor instance
is the deque's only client (connections of other kinds use the separate
`ResponseOrderedTaskProcessor` class and cannot interfere), and then (all
script actions on connection 0) every run's execution events form the
fully serialized pattern — per request in arrival order: start, finish,
response write, before the next request's work starts — optionally
followed by the start of the next work item, which is always the first
not-yet-completed request.  In particular no `deliver_tx` begins before
the previous one completes and its response is written, `end_block` only
after the last `deliver_tx`, `commit` only after `end_block`.  With a
second Consensus connection this FAILS (see the counterexample), as it
does on the legacy engine. -/
theorem C1_request_ordered_serialization (acts : List MReqAct)
    (h : ∀ a ∈ acts, MReqAct.conn a = 0) :
    runEvents (connTrace 0 (runMReq acts).gtrace) =
      serialBlocks ((enqNames (connTrace 0 (runMReq acts).gtrace)).take
          (finishCount (connTrace 0 (runMReq acts).gtrace))) ++
        (match (runMReq acts).current 0 with
         | some w => [PEv.start w.2.1 w.2.2]
         | none => []) ∧
    (∀ w, (runMReq acts).current 0 = some w →
      w.2.1 = finishCount (connTrace 0 (runMReq acts).gtrace)) := by
  obtain ⟨htr, hcur⟩ := mreq_single_trace acts h
  obtain ⟨h1, h2, h3, h4, h5⟩ := runReq_invariant (acts.map backAct)
  rw [htr, hcur]
  constructor
  · cases hc : (runReq (acts.map backAct)).current with
    | none =>
      rw [hc] at h5
      simpa using h5
    | some p =>
      obtain ⟨i, n⟩ := p
      rw [hc] at h5
      simpa using h5
  · intro w hw
    cases hc : (runReq (acts.map backAct)).current with
    | none =>
      rw [hc] at hw
      simp at hw
    | some p =>
      obtain ⟨i, n⟩ := p
      rw [hc] at hw
      rw [hc] at h4
      have hw' : w = ((0 : Nat), i, n) := by
        simpa using hw.symm
      rw [hw']
      exact h4.1

theorem C1_request_ordered_serialization_witness :
    (∀ a ∈ ([.recv 0 .begin_block, .complete 0, .recv 0 .deliver_tx,
        .recv 0 .deliver_tx, .complete 0, .complete 0] : List MReqAct),
      MReqAct.conn a = 0) ∧
    (runEvents (connTrace 0 (runMReq [.recv 0 .begin_block, .complete 0,
        .recv 0 .deliver_tx, .recv 0 .deliver_tx, .complete 0, .complete 0]).gtrace) =
      serialBlocks ((enqNames (connTrace 0 (runMReq [.recv 0 .begin_block, .complete 0,
          .recv 0 .deliver_tx, .recv 0 .deliver_tx, .complete 0, .complete 0]).gtrace)).take
          (finishCount (connTrace 0 (runMReq [.recv 0 .begin_block, .complete 0,
            .recv 0 .deliver_tx, .recv 0 .deliver_tx, .complete 0, .complete 0]).gtrace))) ++
        (match (runMReq [.recv 0 .begin_block, .complete 0, .recv 0 .deliver_tx,
            .recv 0 .deliver_tx, .complete 0, .complete 0]).current 0 with
         | some w => [PEv.start w.2.1 w.2.2]
         | none => []) ∧
    (∀ w, (runMReq [.recv 0 .begin_block, .complete 0, .recv 0 .deliver_tx,
        .recv 0 .deliver_tx, .complete 0, .complete 0]).current 0 = some w →
      w.2.1 = finishCount (connTrace 0 (runMReq [.recv 0 .begin_block, .complete 0,
        .recv 0 .deliver_tx, .recv 0 .deliver_tx, .complete 0, .complete 0]).gtrace))) :=
  ⟨by decide, C1_request_ordered_serialization
    [.recv 0 .begin_block, .complete 0, .recv 0 .deliver_tx,
     .recv 0 .deliver_tx, .complete 0, .complete 0] (by decide)⟩

/-- C2 (amended).  Per-connection response order.  Response-ordered
discipline (Info, Mempool, StateSync): for EVERY schedule over any number
of connections all sharing the one class-level deque, and every
connection `c`, the responses written on `c` are exactly those of `c`'s
first `k` requests in `c`'s arrival order — even when handler executions
complete out of arrival order: the shared deque can delay a connection's
responses behind another's unfinished head, but never reorders them.
Request-ordered discipline (Consensus): the same holds provided the
process has a single Consensus connection (all script actions on
connection 0); with two Consensus connections it fails — see the
counterexample. -/
theorem C2_response_receipt_order (ra : List MReqAct) (rb : List MRespAct)
    (c : Nat) (h : ∀ a ∈ ra, MReqAct.conn a = 0) :
    emits (connTrace 0 (runMReq ra).gtrace) =
      idxFrom 0 ((enqNames (connTrace 0 (runMReq ra).gtrace)).take
        (emits (connTrace 0 (runMReq ra).gtrace)).length) ∧
    emits (connTrace c (runMResp rb).gtrace) =
      idxFrom 0 ((enqNames (connTrace c (runMResp rb).gtrace)).take
        (emits (connTrace c (runMResp rb).gtrace)).length) := by
  constructor
  · rw [(mreq_single_trace ra h).1]
    exact req_emits_eq (ra.map backAct)
  · exact (runMResp_inv rb c).2.2.1

theorem C2_response_receipt_order_witness :
    (∀ a ∈ ([.recv 0 .begin_block, .recv 0 .deliver_tx, .complete 0,
        .complete 0] : List MReqAct), MReqAct.conn a = 0) ∧
    (emits (connTrace 0 (runMReq [.recv 0 .begin_block, .recv 0 .deliver_tx,
        .complete 0, .complete 0]).gtrace) =
      idxFrom 0 ((enqNames (connTrace 0 (runMReq [.recv 0 .begin_block,
          .recv 0 .deliver_tx, .complete 0, .complete 0]).gtrace)).take
        (emits (connTrace 0 (runMReq [.recv 0 .begin_block, .recv 0 .deliver_tx,
          .complete 0, .complete 0]).gtrace)).length) ∧
    emits (connTrace 0 (runMResp [.recv 0 .check_tx, .recv 1 .info,
        .recv 0 .check_tx, .complete 0 1, .complete 1 0, .complete 0 0]).gtrace) =
      idxFrom 0 ((enqNames (connTrace 0 (runMResp [.recv 0 .check_tx, .recv 1 .info,
          .recv 0 .check_tx, .complete 0 1, .complete 1 0, .complete 0 0]).gtrace)).take
        (emits (connTrace 0 (runMResp [.recv 0 .check_tx, .recv 1 .info,
          .recv 0 .check_tx, .complete 0 1, .complete 1 0, .complete 0 0]).gtrace)).length)) :=
  ⟨by decide, C2_response_receipt_order
    [.recv 0 .begin_block, .recv 0 .deliver_tx, .complete 0, .complete 0]
    [.recv 0 .check_tx, .recv 1 .info, .recv 0 .check_tx,
     .complete 0 1, .complete 1 0, .complete 0 0] 0 (by decide)⟩

/-- C2 counterexample.  Two Consensus connections share the class-level
`RequestOrderedTaskProcessor.tasks` deque.  Connection 0 receives
`begin_block` (its instance starts it) and then `deliver_tx` (queued in
the shared deque).  Connection 1 receives its first request: its fresh
instance's `current_task` is `None`, so its `_turn` pops the shared
deque's head — connection 0's queued `deliver_tx` — and runs it
concurrently with connection 0's `begin_block`.  The `deliver_tx`
completes first, so connection 0's responses are written in the order
deliver_tx, begin_block: the receipt order of the claim is violated on a
single connection under the request-ordered discipline. -/
theorem C2_counterexample :
    enqs (connTrace 0 (runMReq [.recv 0 .begin_block, .recv 0 .deliver_tx,
      .recv 1 .info, .complete 1, .complete 0]).gtrace) =
      [(0, RName.begin_block), (1, RName.deliver_tx)] ∧
    emits (connTrace 0 (runMReq [.recv 0 .begin_block, .recv 0 .deliver_tx,
      .recv 1 .info, .complete 1, .complete 0]).gtrace) =
      [(1, RName.deliver_tx), (0, RName.begin_block)] ∧
    emits (connTrace 0 (runMReq [.recv 0 .begin_block, .recv 0 .deliver_tx,
      .recv 1 .info, .complete 1, .complete 0]).gtrace) ≠
      idxFrom 0 ((enqNames (connTrace 0 (runMReq [.recv 0 .begin_block,
        .recv 0 .deliver_tx, .recv 1 .info, .complete 1, .complete 0]).gtrace)).take
        (emits (connTrace 0 (runMReq [.recv 0 .begin_block, .recv 0 .deliver_tx,
          .recv 1 .info, .complete 1, .complete 0]).gtrace)).length) := by
  refine ⟨by decide, by decide, by decide⟩




/-! ## Connection classification and handler caching (src/abci/protocol.py,
`Protocol.process_request` lines 126-158) -/

/-- Classification-relevant state of one `Protocol` connection.
`handler_type` is `self.handler_type`; `reqDisc` tells whether
`self.message_processor` is the `RequestOrderedTaskProcessor`
(`Protocol.__init__` installs a `ResponseOrderedTaskProcessor`, and only
the consensus classification branch replaces it); `resolved` is whether
`self.handler` has been set, `resolveCount` counts the
`app.get_connection_handler` calls; `pending` are the created
`async_response` work units (id, request name, prologue run?). -/
structure Engine where
  handler_type : Option HKind
  reqDisc : Bool
  resolved : Bool
  resolveCount : Nat
  pending : List (Nat × RName × Bool)
  nextId : Nat
deriving DecidableEq, Repr

/-- Fresh connection (`Protocol.__init__` plus the class defaults
`handler = None`, `handler_type = None`). -/
def Engine.init : Engine := ⟨none, false, false, 0, [], 0⟩

/-- `Protocol.process_request` on one parsed request: while
`self.handler_type is None`, the if-chain classifies by name, the
consensus branch additionally replacing the processor with a
request-ordered one; then the `async_response` work unit is built and
handed to the processor. -/
def Engine.recv (s : Engine) (n : RName) : Engine :=
  let s1 :=
    match s.handler_type with
    | some _ => s
    | none =>
      match classify n with
      | some k => { s with handler_type := some k,
                           reqDisc := if k = HKind.consensus then true else s.reqDisc }
      | none => s
  { s1 with pending := s1.pending ++ [(s1.nextId, n, false)], nextId := s1.nextId + 1 }

/-- The first scheduling of work unit `i`: `async_response`'s prologue
runs — `if self.handler is None and self.handler_type is not None:
self.handler = await self.app.get_connection_handler(self.handler_type)`
— modelled as one atomic step (the resolver of the bundled applications
returns without suspending). -/
def Engine.firstStep (s : Engine) (i : Nat) : Engine :=
  match s.pending.find? (fun e => e.1 == i) with
  | some (_, _, false) =>
    let s1 := { s with
      pending := s.pending.map fun e => if e.1 = i then (e.1, e.2.1, true) else e }
    if !s.resolved && s.handler_type.isSome then
      { s1 with resolved := true, resolveCount := s1.resolveCount + 1 }
    else s1
  | _ => s

/-- Scheduler actions at the connection level: a classified request is
received, or a created work unit gets its first scheduling. -/
inductive EAct
  | recv (n : RName)
  | firstStep (i : Nat)
deriving DecidableEq, Repr

def Engine.stepAct (s : Engine) : EAct → Engine
  | .recv n => s.recv n
  | .firstStep i => s.firstStep i

/-- A run of the connection over a script. -/
def runE (acts : List EAct) : Engine :=
  acts.foldl Engine.stepAct Engine.init

/-- The names of the requests received, in order. -/
def recvNames (acts : List EAct) : List RName :=
  acts.filterMap fun a => match a with | .recv n => some n | _ => none

/-- The classification of the first request whose name classifies
(equivalently, per `classify`, the first name that is neither `echo` nor
`flush`). -/
def classifyFirst (l : List RName) : Option HKind :=
  (l.filterMap classify).head?

theorem runE_snoc (l : List EAct) (a : EAct) :
    runE (l ++ [a]) = Engine.stepAct (runE l) a := by
  rw [runE, List.foldl_append, List.foldl_cons, List.foldl_nil]
  rfl

theorem engine_state_eq (acts : List EAct) :
    (runE acts).handler_type = classifyFirst (recvNames acts) ∧
    ((runE acts).reqDisc = true ↔ classifyFirst (recvNames acts) = some HKind.consensus) ∧
    ((runE acts).resolved = false → (runE acts).resolveCount = 0) ∧
    (runE acts).resolveCount ≤ 1 := by
  induction acts using List.reverseRecOn with
  | nil =>
    simp [runE, recvNames, classifyFirst, Engine.init]
  | append_singleton l a ih =>
    obtain ⟨ih1, ih2, ih3, ih4⟩ := ih
    rw [runE_snoc]
    cases a with
    | recv n =>
      have hrn : recvNames (l ++ [EAct.recv n]) = recvNames l ++ [n] := by
        simp [recvNames]
      rw [hrn]
      simp only [Engine.stepAct]
      unfold Engine.recv
      cases hht : (runE l).handler_type with
      | some k =>
        have hcf : classifyFirst (recvNames l) = some k := by rw [← ih1]; exact hht
        have hcf2 : classifyFirst (recvNames l ++ [n]) = some k := by
          unfold classifyFirst at hcf ⊢
          rw [List.filterMap_append]
          cases hfm : (recvNames l).filterMap classify with
          | nil => rw [hfm] at hcf; simp at hcf
          | cons x xs => rw [hfm] at hcf; simpa using hcf
        simp only [hht]
        refine ⟨?_, ?_, ih3, ih4⟩
        · simp [hcf2, hht]
        · rw [hcf2, ← hcf]
          exact ih2
      | none =>
        have hcf : classifyFirst (recvNames l) = none := by rw [← ih1]; exact hht
        have hfm : (recvNames l).filterMap classify = [] := by
          unfold classifyFirst at hcf
          exact List.head?_eq_none_iff.mp hcf
        have hcf2 : classifyFirst (recvNames l ++ [n]) = classify n := by
          unfold classifyFirst
          rw [List.filterMap_append, hfm, List.nil_append]
          cases hc : classify n <;> simp [List.filterMap_cons, hc]
        simp only [hht]
        cases hcn : classify n with
        | some k =>
          simp only [hcn]
          refine ⟨?_, ?_, ih3, ih4⟩
          · simp [hcf2, hcn]
          · rw [hcf2, hcn]
            by_cases hk : k = HKind.consensus
            · simp [hk]
            · simp only [if_neg hk]
              constructor
              · intro hrd
                rw [ih2, hcf] at hrd
                exact absurd hrd (by simp)
              · intro hsome
                exact absurd (by injection hsome) hk
        | none =>
          simp only [hcn]
          refine ⟨?_, ?_, ih3, ih4⟩
          · simp [hcf2, hcn, hht]
          · rw [hcf2, hcn, ih2, hcf]
    | firstStep i =>
      have hrn : recvNames (l ++ [EAct.firstStep i]) = recvNames l := by
        simp [recvNames]
      rw [hrn]
      simp only [Engine.stepAct]
      unfold Engine.firstStep
      cases hfind : (runE l).pending.find? (fun e => e.1 == i) with
      | none => exact ⟨ih1, ih2, ih3, ih4⟩
      | some e =>
        obtain ⟨j, m, b⟩ := e
        cases b with
        | true => exact ⟨ih1, ih2, ih3, ih4⟩
        | false =>
          simp only
          by_cases hres : (!(runE l).resolved && (runE l).handler_type.isSome) = true
          · rw [if_pos hres]
            have hr0 : (runE l).resolveCount = 0 := by
              simp only [Bool.and_eq_true, Bool.not_eq_true'] at hres
              exact ih3 hres.1
            exact ⟨ih1, ih2, by simp, by simp [hr0]⟩
          · rw [if_neg hres]
            exact ⟨ih1, ih2, ih3, ih4⟩

theorem engine_ht_mono (acts : List EAct) :
    ∀ (s : Engine) (k : HKind), s.handler_type = some k →
      (acts.foldl Engine.stepAct s).handler_type = some k := by
  induction acts with
  | nil => intro s k h; exact h
  | cons a rest ih =>
    intro s k h
    rw [List.foldl_cons]
    refine ih _ k ?_
    cases a with
    | recv n =>
      simp only [Engine.stepAct]
      unfold Engine.recv
      simp [h]
    | firstStep i =>
      simp only [Engine.stepAct]
      unfold Engine.firstStep
      cases hfind : s.pending.find? (fun e => e.1 == i) with
      | none => exact h
      | some e =>
        obtain ⟨j, m, b⟩ := e
        cases b with
        | true => exact h
        | false =>
          simp only
          by_cases hres : (!s.resolved && s.handler_type.isSome) = true
          · rw [if_pos hres]; exact h
          · rw [if_neg hres]; exact h

theorem engine_resolved_mono (acts : List EAct) :
    ∀ (s : Engine), s.resolved = true →
      (acts.foldl Engine.stepAct s).resolved = true := by
  induction acts with
  | nil => intro s h; exact h
  | cons a rest ih =>
    intro s h
    rw [List.foldl_cons]
    refine ih _ ?_
    cases a with
    | recv n =>
      simp only [Engine.stepAct]
      unfold Engine.recv
      cases hht : s.handler_type with
      | some k => simp only [hht]; exact h
      | none =>
        simp only [hht]
        cases hcn : classify n <;> simp only [hcn] <;> exact h
    | firstStep i =>
      simp only [Engine.stepAct]
      unfold Engine.firstStep
      cases hfind : s.pending.find? (fun e => e.1 == i) with
      | none => exact h
      | some e =>
        obtain ⟨j, m, b⟩ := e
        cases b with
        | true => exact h
        | false =>
          simp only
          by_cases hres : (!s.resolved && s.handler_type.isSome) = true
          · rw [if_pos hres]
          · rw [if_neg hres]; exact h

/-- C6.  The connection kind is a pure function of the name of the first
received request that classifies — per `classify`, exactly the requests
that are neither `echo` nor `flush` — following the table of
`process_request`: info/set_option/query ↦ Info, check_tx ↦ Mempool,
init_chain/begin_block/deliver_tx/end_block/commit ↦ Consensus,
list_snapshots/offer_snapshot/load_snapshot_chunk/apply_snapshot_chunk ↦
StateSync.  Once set it never changes for the rest of the run; the
Consensus kind (and only it) selects the request-ordered discipline; the
handler is resolved at most once (`resolveCount ≤ 1`) and stays cached
(`resolved` never falls back to false). -/
theorem C6_classification (acts pre suf : List EAct) (k : HKind)
    (hsplit : acts = pre ++ suf) :
    (runE acts).handler_type = classifyFirst (recvNames acts) ∧
    ((runE acts).reqDisc = true ↔ classifyFirst (recvNames acts) = some HKind.consensus) ∧
    ((runE pre).handler_type = some k → (runE acts).handler_type = some k) ∧
    ((runE pre).resolved = true → (runE acts).resolved = true) ∧
    (runE acts).resolveCount ≤ 1 ∧
    (∀ n, classify n = none ↔ (n = RName.echo ∨ n = RName.flush)) ∧
    classify .info = some .info ∧ classify .setOption = some .info ∧
    classify .query = some .info ∧ classify .check_tx = some .mempool ∧
    classify .init_chain = some .consensus ∧ classify .begin_block = some .consensus ∧
    classify .deliver_tx = some .consensus ∧ classify .end_block = some .consensus ∧
    classify .commit = some .consensus ∧ classify .list_snapshots = some .statesync ∧
    classify .offer_snapshot = some .statesync ∧
    classify .load_snapshot_chunk = some .statesync ∧
    classify .apply_snapshot_chunk = some .statesync := by
  obtain ⟨h1, h2, h3, h4⟩ := engine_state_eq acts
  subst hsplit
  refine ⟨h1, h2, ?_, ?_, h4, ?_, rfl, rfl, rfl, rfl, rfl, rfl, rfl, rfl, rfl, rfl,
    rfl, rfl, rfl⟩
  · intro hpre
    rw [runE, List.foldl_append]
    exact engine_ht_mono suf _ k hpre
  · intro hpre
    rw [runE, List.foldl_append]
    exact engine_resolved_mono suf _ hpre
  · intro n
    cases n <;> simp [classify]

/-- Witness for C6 at a concrete run: an `echo` (unclassifying), then a
`deliver_tx` that classifies the connection as Consensus, then the first
schedulings of both work units (one resolution). -/
theorem C6_classification_witness :
    (runE [EAct.recv .echo, EAct.recv .deliver_tx, EAct.firstStep 0,
      EAct.firstStep 1]).handler_type = some HKind.consensus ∧
    (runE [EAct.recv .echo, EAct.recv .deliver_tx, EAct.firstStep 0,
      EAct.firstStep 1]).reqDisc = true ∧
    (runE [EAct.recv .echo, EAct.recv .deliver_tx, EAct.firstStep 0,
      EAct.firstStep 1]).resolveCount = 1 := by
  have h := C6_classification
    [EAct.recv .echo, EAct.recv .deliver_tx, EAct.firstStep 0, EAct.firstStep 1]
    [EAct.recv .echo, EAct.recv .deliver_tx]
    [EAct.firstStep 0, EAct.firstStep 1] HKind.consensus rfl
  refine ⟨?_, ?_, ?_⟩
  · rw [h.1]
    decide
  · rw [h.2.1]
    decide
  · have hle := h.2.2.2.2.1
    have hge : 1 ≤ (runE [EAct.recv .echo, EAct.recv .deliver_tx, EAct.firstStep 0,
        EAct.firstStep 1]).resolveCount := by decide
    omega

/-! ## Legacy engine (src/tend/abci/protocol.py) -/

/-- Entries of tend `Protocol.response_queue`: the asyncio task created
for a request (arrival index, name, handler invocation started?), or a
parked `('flush', ResponseFlush())` marker tuple. -/
inductive TQEntry
  | task (idx : Nat) (name : RName) (started : Bool)
  | marker (idx : Nat)
deriving DecidableEq, Repr

/-- Arrival index of a queue entry. -/
def TQEntry.idx : TQEntry → Nat
  | .task i _ _ => i
  | .marker i => i

/-- State of one legacy connection: handler resolution flag, the
`response_queue`, the frames written to the transport (arrival index,
response name), the received request names by arrival index, and the
handler start/finish trace. -/
structure Tend where
  resolved : Bool
  queue : List TQEntry
  wire : List (Nat × RName)
  arrivals : List RName
  trace : List PEv
deriving DecidableEq, Repr

def Tend.init : Tend := ⟨false, [], [], [], []⟩

/-- How many `asyncio.Task` entries the response queue holds
(`len([task for task in self.response_queue if isinstance(task, Task)])`). -/
def taskCount (q : List TQEntry) : Nat :=
  (q.filter fun e => match e with | .task _ _ _ => true | _ => false).length

/-- tend `Protocol.data_received` (lines 58-77) on one parsed request:
`flush` is answered immediately when the response queue is empty and
parked at its tail otherwise; `echo` is answered immediately; any other
name goes to `process_request`, which creates the handler task eagerly
(`asyncio.create_task`) and appends it to the queue. -/
def Tend.recv (s : Tend) (n : RName) : Tend :=
  match n with
  | .flush =>
    if s.queue.isEmpty then
      { s with arrivals := s.arrivals ++ [.flush],
               wire := s.wire ++ [(s.arrivals.length, .flush)] }
    else
      { s with arrivals := s.arrivals ++ [.flush],
               queue := s.queue ++ [.marker s.arrivals.length] }
  | .echo =>
    { s with arrivals := s.arrivals ++ [.echo],
             wire := s.wire ++ [(s.arrivals.length, .echo)] }
  | _ =>
    { s with arrivals := s.arrivals ++ [n],
             queue := s.queue ++ [.task s.arrivals.length n false] }

/-- The first effective scheduling of task `i`: `async_response` resolves
the handler if needed and then calls the handler method — except that an
`end_block` task keeps polling (`await asyncio.sleep(0.001)`) while more
than one task sits in the response queue (the ToDo workaround of
`process_request`), so its handler invocation only begins once it is the
only task left. -/
def tendMark (i : Nat) : TQEntry → TQEntry
  | .task j m st => if j = i then .task j m true else .task j m st
  | e => e

def Tend.stepTask (s : Tend) (i : Nat) : Tend :=
  match s.queue.find? (fun e => e.idx == i) with
  | some (.task _ n false) =>
    if n = RName.end_block ∧ taskCount s.queue > 1 then s
    else
      { s with resolved := true,
               queue := s.queue.map (tendMark i),
               trace := s.trace ++ [.start i n] }
  | _ => s

/-- The drain loop at the end of `process_response_task` (lines 120-123):
pop leading `('flush', …)` tuples off the response queue, writing a
framed `ResponseFlush` for each. -/
def tendDrainMarkers :
    List TQEntry → List (Nat × RName) → List TQEntry × List (Nat × RName)
  | .marker f :: rest, w => tendDrainMarkers rest (w ++ [(f, .flush)])
  | q, w => (q, w)

/-- tend `Protocol.process_response_task` (lines 113-123) when task `i`
completes: write its framed response, remove the task from the response
queue, then drain leading flush markers. -/
def Tend.completeTask (s : Tend) (i : Nat) : Tend :=
  match s.queue.find? (fun e => e.idx == i) with
  | some (.task _ n true) =>
    let w := s.wire ++ [(i, n)]
    let q := s.queue.filter (fun e => e.idx ≠ i)
    let out := tendDrainMarkers q w
    { s with queue := out.1, wire := out.2, trace := s.trace ++ [.finish i n] }
  | _ => s

/-- Scheduler actions of the legacy engine. -/
inductive TendAct
  | recv (n : RName)
  | step (i : Nat)
  | complete (i : Nat)
deriving DecidableEq, Repr

def Tend.stepAct (s : Tend) : TendAct → Tend
  | .recv n => s.recv n
  | .step i => s.stepTask i
  | .complete i => s.completeTask i

/-- A run of the legacy engine over a scheduler script. -/
def runTend (acts : List TendAct) : Tend :=
  acts.foldl Tend.stepAct Tend.init

/-- C1 counterexample, against both engines the claim cites.  Legacy
engine (src/tend/abci/protocol.py): on a connection classified as
Consensus — its first request `begin_block` resolves the
`ConsensusHandler` — `process_request` creates a task per request
eagerly, so after `begin_block` completes and two `deliver_tx` requests
arrive, both `deliver_tx` handler invocations run at once (`start 2`
precedes `finish 1`; the `end_block` polling workaround gates only
`end_block`).  Current engine (src/abci/protocol.py): with TWO Consensus
connections, the shared class-level `RequestOrderedTaskProcessor.tasks`
deque lets connection 1's fresh instance pop and start connection 0's
queued second `deliver_tx` while connection 0's first is still running —
connection 0's trace shows two starts with no finish between, and
instance 1 holds connection 0's work. -/
theorem C1_counterexample :
    (runTend [.recv .begin_block, .step 0, .complete 0, .recv .deliver_tx,
      .recv .deliver_tx, .step 1, .step 2, .complete 1, .complete 2]).trace =
      [.start 0 .begin_block, .finish 0 .begin_block, .start 1 .deliver_tx,
       .start 2 .deliver_tx, .finish 1 .deliver_tx, .finish 2 .deliver_tx] ∧
    (runTend [.recv .begin_block, .step 0, .complete 0, .recv .deliver_tx,
      .recv .deliver_tx, .step 1, .step 2, .complete 1, .complete 2]).arrivals.head? =
      some RName.begin_block ∧
    classify RName.begin_block = some HKind.consensus ∧
    [PEv.start 2 RName.deliver_tx, PEv.finish 1 RName.deliver_tx].Sublist
      (runTend [.recv .begin_block, .step 0, .complete 0, .recv .deliver_tx,
        .recv .deliver_tx, .step 1, .step 2, .complete 1, .complete 2]).trace ∧
    connTrace 0 (runMReq [.recv 0 .deliver_tx, .recv 0 .deliver_tx,
      .recv 1 .begin_block]).gtrace =
      [.enq 0 .deliver_tx, .start 0 .deliver_tx, .enq 1 .deliver_tx,
       .start 1 .deliver_tx] ∧
    runEvents (connTrace 0 (runMReq [.recv 0 .deliver_tx, .recv 0 .deliver_tx,
      .recv 1 .begin_block]).gtrace) =
      [.start 0 .deliver_tx, .start 1 .deliver_tx] ∧
    (runMReq [.recv 0 .deliver_tx, .recv 0 .deliver_tx,
      .recv 1 .begin_block]).current 1 = some (0, 1, .deliver_tx) := by
  refine ⟨by decide, by decide, by decide, by decide, by decide, by decide, by decide⟩

theorem pair_sublist_append (w : List (Nat × RName)) (p q : Nat × RName) (hp : p ∈ w) :
    [p, q].Sublist (w ++ [q]) := by
  obtain ⟨w1, w2, rfl⟩ := List.append_of_mem hp
  have h1 : [p].Sublist (w1 ++ [p]) := List.sublist_append_right _ _
  have h2 : [q].Sublist (w2 ++ [q]) := List.sublist_append_right _ _
  have h12 := List.Sublist.append h1 h2
  simpa using h12

/-- The inductive invariant of the legacy connection: queue entries are in
strictly increasing arrival order; queue and wire refer to real arrivals;
every arrival is either still queued or already written; every
`ResponseFlush` frame on the wire is preceded by a frame of every earlier
arrival (the flush barrier); task entries are never named `flush`. -/
def tendInv (s : Tend) : Prop :=
  List.Pairwise (fun a b => a.idx < b.idx) s.queue ∧
  (∀ e ∈ s.queue, e.idx < s.arrivals.length) ∧
  (∀ p ∈ s.wire, p.1 < s.arrivals.length) ∧
  (∀ a, a < s.arrivals.length →
    (∃ e ∈ s.queue, TQEntry.idx e = a) ∨ (∃ n, (a, n) ∈ s.wire)) ∧
  (∀ f, (f, RName.flush) ∈ s.wire → ∀ a, a < f →
    ∃ n, [(a, n), (f, RName.flush)].Sublist s.wire) ∧
  (∀ i n st, TQEntry.task i n st ∈ s.queue → n ≠ RName.flush)

theorem tendInv_init : tendInv Tend.init := by
  refine ⟨by simp [Tend.init], ?_, ?_, ?_, ?_, ?_⟩ <;> simp [Tend.init]

theorem tendDrain_inv (L : Nat) :
    ∀ (q : List TQEntry) (w : List (Nat × RName)),
      List.Pairwise (fun a b => a.idx < b.idx) q →
      (∀ e ∈ q, e.idx < L) →
      (∀ p ∈ w, p.1 < L) →
      (∀ a, a < L → (∃ e ∈ q, TQEntry.idx e = a) ∨ (∃ n, (a, n) ∈ w)) →
      (∀ f, (f, RName.flush) ∈ w → ∀ a, a < f →
        ∃ n, [(a, n), (f, RName.flush)].Sublist w) →
      (∀ i n st, TQEntry.task i n st ∈ q → n ≠ RName.flush) →
      List.Pairwise (fun a b => a.idx < b.idx) (tendDrainMarkers q w).1 ∧
      (∀ e ∈ (tendDrainMarkers q w).1, e.idx < L) ∧
      (∀ p ∈ (tendDrainMarkers q w).2, p.1 < L) ∧
      (∀ a, a < L → (∃ e ∈ (tendDrainMarkers q w).1, TQEntry.idx e = a) ∨
        (∃ n, (a, n) ∈ (tendDrainMarkers q w).2)) ∧
      (∀ f, (f, RName.flush) ∈ (tendDrainMarkers q w).2 → ∀ a, a < f →
        ∃ n, [(a, n), (f, RName.flush)].Sublist (tendDrainMarkers q w).2) ∧
      (∀ i n st, TQEntry.task i n st ∈ (tendDrainMarkers q w).1 → n ≠ RName.flush) := by
  intro q
  induction q with
  | nil =>
    intro w h1 h2 h3 h4 h5 h6
    exact ⟨h1, h2, h3, h4, h5, h6⟩
  | cons e rest ih =>
    intro w h1 h2 h3 h4 h5 h6
    cases e with
    | task j m st =>
      exact ⟨h1, h2, h3, h4, h5, h6⟩
    | marker f =>
      have hstep : tendDrainMarkers (TQEntry.marker f :: rest) w =
          tendDrainMarkers rest (w ++ [(f, RName.flush)]) := rfl
      rw [hstep]
      have hpc := List.pairwise_cons.mp h1
      have hfL : f < L := h2 (TQEntry.marker f) (by simp)
      have hW' : ∀ p ∈ w ++ [(f, RName.flush)], p.1 < L := by
        intro p hp
        rcases List.mem_append.mp hp with hp | hp
        · exact h3 p hp
        · simp at hp
          rw [hp]
          exact hfL
      have hT3' : ∀ a, a < L →
          (∃ e ∈ rest, TQEntry.idx e = a) ∨
          (∃ n, (a, n) ∈ w ++ [(f, RName.flush)]) := by
        intro a ha
        rcases h4 a ha with ⟨e, he, hei⟩ | ⟨n, hn⟩
        · rcases List.mem_cons.mp he with he | he
          · right
            refine ⟨RName.flush, ?_⟩
            rw [he] at hei
            simp only [TQEntry.idx] at hei
            rw [← hei]
            simp
          · exact Or.inl ⟨e, he, hei⟩
        · exact Or.inr ⟨n, by simp [hn]⟩
      have hT4' : ∀ f', (f', RName.flush) ∈ w ++ [(f, RName.flush)] → ∀ a, a < f' →
          ∃ n, [(a, n), (f', RName.flush)].Sublist (w ++ [(f, RName.flush)]) := by
        intro f' hf' a ha
        rcases List.mem_append.mp hf' with hf' | hf'
        · obtain ⟨n, hsub⟩ := h5 f' hf' a ha
          exact ⟨n, hsub.trans (List.sublist_append_left _ _)⟩
        · simp only [List.mem_singleton, Prod.mk.injEq] at hf'
          obtain ⟨hff, -⟩ := hf'
          subst hff
          rcases h4 a (by omega) with ⟨e, he, hei⟩ | ⟨n, hn⟩
          · exfalso
            rcases List.mem_cons.mp he with he | he
            · rw [he] at hei
              simp only [TQEntry.idx] at hei
              omega
            · have hlt := hpc.1 e he
              simp only [TQEntry.idx] at hlt hei
              omega
          · exact ⟨n, pair_sublist_append w (a, n) (f', RName.flush) hn⟩
      exact ih (w ++ [(f, RName.flush)]) hpc.2
        (fun e he => h2 e (by simp [he])) hW' hT3' hT4'
        (fun i n st hmem => h6 i n st (by simp [hmem]))

theorem tendMark_idx (i : Nat) (e : TQEntry) : (tendMark i e).idx = e.idx := by
  cases e with
  | task j m st =>
    simp only [tendMark]
    split <;> rfl
  | marker j => rfl

theorem tendInv_append_entry (s : Tend) (n : RName) (e : TQEntry)
    (hidx : TQEntry.idx e = s.arrivals.length)
    (hflush : ∀ i m st, e = TQEntry.task i m st → m ≠ RName.flush)
    (h : tendInv s) :
    tendInv { s with arrivals := s.arrivals ++ [n], queue := s.queue ++ [e] } := by
  obtain ⟨h1, h2, h3, h4, h5, h6⟩ := h
  refine ⟨?_, ?_, ?_, ?_, ?_, ?_⟩
  · refine List.pairwise_append.mpr ⟨h1, by simp, ?_⟩
    intro a ha b hb
    simp only [List.mem_singleton] at hb
    subst hb
    rw [hidx]
    exact h2 a ha
  · intro e' he'
    show TQEntry.idx e' < (s.arrivals ++ [n]).length
    rw [List.length_append]
    rcases List.mem_append.mp he' with he' | he'
    · have := h2 e' he'
      simp only [List.length_cons, List.length_nil]
      omega
    · simp only [List.mem_singleton] at he'
      subst he'
      rw [hidx]
      simp
  · intro p hp
    show p.1 < (s.arrivals ++ [n]).length
    rw [List.length_append]
    have := h3 p hp
    simp only [List.length_cons, List.length_nil]
    omega
  · intro a ha
    show (∃ e' ∈ s.queue ++ [e], TQEntry.idx e' = a) ∨ (∃ m, (a, m) ∈ s.wire)
    rw [List.length_append] at ha
    simp only [List.length_cons, List.length_nil] at ha
    by_cases haL : a < s.arrivals.length
    · rcases h4 a haL with ⟨e', he', hei⟩ | hw
      · exact Or.inl ⟨e', List.mem_append_left _ he', hei⟩
      · exact Or.inr hw
    · have haeq : a = s.arrivals.length := by omega
      refine Or.inl ⟨e, List.mem_append_right _ (by simp), ?_⟩
      rw [hidx, haeq]
  · exact h5
  · intro i m st hmem
    rcases List.mem_append.mp hmem with hmem | hmem
    · exact h6 i m st hmem
    · simp only [List.mem_singleton] at hmem
      exact hflush i m st hmem.symm

theorem tendInv_wire_resp (s : Tend) (n : RName)
    (hbar : n = RName.flush → s.queue = []) (h : tendInv s) :
    tendInv { s with arrivals := s.arrivals ++ [n],
                     wire := s.wire ++ [(s.arrivals.length, n)] } := by
  obtain ⟨h1, h2, h3, h4, h5, h6⟩ := h
  refine ⟨h1, ?_, ?_, ?_, ?_, h6⟩
  · intro e' he'
    show TQEntry.idx e' < (s.arrivals ++ [n]).length
    have := h2 e' he'
    rw [List.length_append]
    simp only [List.length_cons, List.length_nil]
    omega
  · intro p hp
    show p.1 < (s.arrivals ++ [n]).length
    rw [List.length_append]
    simp only [List.length_cons, List.length_nil]
    rcases List.mem_append.mp hp with hp | hp
    · have := h3 p hp
      omega
    · simp only [List.mem_singleton] at hp
      rw [hp]
      omega
  · intro a ha
    show (∃ e' ∈ s.queue, TQEntry.idx e' = a) ∨
      (∃ m, (a, m) ∈ s.wire ++ [(s.arrivals.length, n)])
    rw [List.length_append] at ha
    simp only [List.length_cons, List.length_nil] at ha
    by_cases haL : a < s.arrivals.length
    · rcases h4 a haL with hq | ⟨m, hm⟩
      · exact Or.inl hq
      · exact Or.inr ⟨m, List.mem_append_left _ hm⟩
    · have haeq : a = s.arrivals.length := by omega
      subst haeq
      exact Or.inr ⟨n, List.mem_append_right _ (by simp)⟩
  · intro f hf a ha
    rcases List.mem_append.mp hf with hf | hf
    · obtain ⟨m, hsub⟩ := h5 f hf a ha
      exact ⟨m, hsub.trans (List.sublist_append_left _ _)⟩
    · simp only [List.mem_singleton, Prod.mk.injEq] at hf
      obtain ⟨hfL, hnf⟩ := hf
      have hqnil := hbar hnf.symm
      subst hfL
      subst hnf
      rcases h4 a ha with ⟨e', he', -⟩ | ⟨m, hm⟩
      · rw [hqnil] at he'
        cases he'
      · exact ⟨m, pair_sublist_append s.wire (a, m)
          (s.arrivals.length, RName.flush) hm⟩

theorem tendInv_recv (s : Tend) (n : RName) (h : tendInv s) : tendInv (s.recv n) := by
  cases n with
  | flush =>
    by_cases hq : s.queue.isEmpty
    · have hqnil : s.queue = [] := by simpa [List.isEmpty_iff] using hq
      have hstep : s.recv RName.flush =
          { s with arrivals := s.arrivals ++ [RName.flush],
                   wire := s.wire ++ [(s.arrivals.length, RName.flush)] } := by
        unfold Tend.recv
        rw [if_pos hq]
      rw [hstep]
      exact tendInv_wire_resp s RName.flush (fun _ => hqnil) h
    · have hstep : s.recv RName.flush =
          { s with arrivals := s.arrivals ++ [RName.flush],
                   queue := s.queue ++ [.marker s.arrivals.length] } := by
        unfold Tend.recv
        rw [if_neg hq]
      rw [hstep]
      exact tendInv_append_entry s RName.flush (.marker s.arrivals.length) rfl
        (fun i m st hcontra => absurd hcontra (by simp)) h
  | echo =>
    exact tendInv_wire_resp s RName.echo (by simp) h
  | info =>
    exact tendInv_append_entry s _ (.task s.arrivals.length _ false) rfl
      (fun i m st hc => by simp only [TQEntry.task.injEq] at hc; rw [← hc.2.1]; simp) h
  | setOption =>
    exact tendInv_append_entry s _ (.task s.arrivals.length _ false) rfl
      (fun i m st hc => by simp only [TQEntry.task.injEq] at hc; rw [← hc.2.1]; simp) h
  | query =>
    exact tendInv_append_entry s _ (.task s.arrivals.length _ false) rfl
      (fun i m st hc => by simp only [TQEntry.task.injEq] at hc; rw [← hc.2.1]; simp) h
  | check_tx =>
    exact tendInv_append_entry s _ (.task s.arrivals.length _ false) rfl
      (fun i m st hc => by simp only [TQEntry.task.injEq] at hc; rw [← hc.2.1]; simp) h
  | init_chain =>
    exact tendInv_append_entry s _ (.task s.arrivals.length _ false) rfl
      (fun i m st hc => by simp only [TQEntry.task.injEq] at hc; rw [← hc.2.1]; simp) h
  | begin_block =>
    exact tendInv_append_entry s _ (.task s.arrivals.length _ false) rfl
      (fun i m st hc => by simp only [TQEntry.task.injEq] at hc; rw [← hc.2.1]; simp) h
  | deliver_tx =>
    exact tendInv_append_entry s _ (.task s.arrivals.length _ false) rfl
      (fun i m st hc => by simp only [TQEntry.task.injEq] at hc; rw [← hc.2.1]; simp) h
  | end_block =>
    exact tendInv_append_entry s _ (.task s.arrivals.length _ false) rfl
      (fun i m st hc => by simp only [TQEntry.task.injEq] at hc; rw [← hc.2.1]; simp) h
  | commit =>
    exact tendInv_append_entry s _ (.task s.arrivals.length _ false) rfl
      (fun i m st hc => by simp only [TQEntry.task.injEq] at hc; rw [← hc.2.1]; simp) h
  | list_snapshots =>
    exact tendInv_append_entry s _ (.task s.arrivals.length _ false) rfl
      (fun i m st hc => by simp only [TQEntry.task.injEq] at hc; rw [← hc.2.1]; simp) h
  | offer_snapshot =>
    exact tendInv_append_entry s _ (.task s.arrivals.length _ false) rfl
      (fun i m st hc => by simp only [TQEntry.task.injEq] at hc; rw [← hc.2.1]; simp) h
  | load_snapshot_chunk =>
    exact tendInv_append_entry s _ (.task s.arrivals.length _ false) rfl
      (fun i m st hc => by simp only [TQEntry.task.injEq] at hc; rw [← hc.2.1]; simp) h
  | apply_snapshot_chunk =>
    exact tendInv_append_entry s _ (.task s.arrivals.length _ false) rfl
      (fun i m st hc => by simp only [TQEntry.task.injEq] at hc; rw [← hc.2.1]; simp) h

theorem tendInv_stepTask (s : Tend) (i : Nat) (h : tendInv s) :
    tendInv (s.stepTask i) := by
  cases hfind : s.queue.find? (fun e => TQEntry.idx e == i) with
  | none =>
    have hstep : s.stepTask i = s := by
      unfold Tend.stepTask
      rw [hfind]
    rw [hstep]
    exact h
  | some e =>
    cases e with
    | marker j =>
      have hstep : s.stepTask i = s := by
        unfold Tend.stepTask
        rw [hfind]
      rw [hstep]
      exact h
    | task j m st =>
      cases st with
      | true =>
        have hstep : s.stepTask i = s := by
          unfold Tend.stepTask
          rw [hfind]
        rw [hstep]
        exact h
      | false =>
        by_cases hc : m = RName.end_block ∧ taskCount s.queue > 1
        · have hstep : s.stepTask i = s := by
            unfold Tend.stepTask
            rw [hfind]
            exact if_pos hc
          rw [hstep]
          exact h
        · have hstep : s.stepTask i =
              { s with resolved := true,
                       queue := s.queue.map (tendMark i),
                       trace := s.trace ++ [.start i m] } := by
            unfold Tend.stepTask
            rw [hfind]
            exact if_neg hc
          rw [hstep]
          obtain ⟨h1, h2, h3, h4, h5, h6⟩ := h
          refine ⟨?_, ?_, h3, ?_, h5, ?_⟩
          · refine List.pairwise_map.mpr (h1.imp ?_)
            intro a b hab
            rw [tendMark_idx, tendMark_idx]
            exact hab
          · intro e' he'
            obtain ⟨e, he, rfl⟩ := List.mem_map.mp he'
            show TQEntry.idx (tendMark i e) < s.arrivals.length
            rw [tendMark_idx]
            exact h2 e he
          · intro a ha
            rcases h4 a ha with ⟨e, he, hei⟩ | hw
            · refine Or.inl ⟨tendMark i e, List.mem_map_of_mem _ he, ?_⟩
              rw [tendMark_idx]
              exact hei
            · exact Or.inr hw
          · intro i' n' st' hmem'
            obtain ⟨e, he, heq⟩ := List.mem_map.mp hmem'
            cases e with
            | marker k =>
              exact absurd heq (by simp [tendMark])
            | task k km kst =>
              have hname : km = n' := by
                simp only [tendMark] at heq
                split at heq <;> simp_all
              rw [← hname]
              exact h6 k km kst he

theorem tendInv_completeTask (s : Tend) (i : Nat) (h : tendInv s) :
    tendInv (s.completeTask i) := by
  cases hfind : s.queue.find? (fun e => TQEntry.idx e == i) with
  | none =>
    have hstep : s.completeTask i = s := by
      unfold Tend.completeTask
      rw [hfind]
    rw [hstep]
    exact h
  | some e =>
    cases e with
    | marker j =>
      have hstep : s.completeTask i = s := by
        unfold Tend.completeTask
        rw [hfind]
      rw [hstep]
      exact h
    | task j m st =>
      cases st with
      | false =>
        have hstep : s.completeTask i = s := by
          unfold Tend.completeTask
          rw [hfind]
        rw [hstep]
        exact h
      | true =>
        have hstep : s.completeTask i =
            { s with
              queue := (tendDrainMarkers (s.queue.filter (fun e => TQEntry.idx e ≠ i))
                (s.wire ++ [(i, m)])).1,
              wire := (tendDrainMarkers (s.queue.filter (fun e => TQEntry.idx e ≠ i))
                (s.wire ++ [(i, m)])).2,
              trace := s.trace ++ [.finish i m] } := by
          unfold Tend.completeTask
          rw [hfind]
        rw [hstep]
        obtain ⟨h1, h2, h3, h4, h5, h6⟩ := h
        have hmem : TQEntry.task j m true ∈ s.queue := List.mem_of_find?_eq_some hfind
        have hji : j = i := by
          have hpred := List.find?_some hfind
          simpa [TQEntry.idx] using hpred
        subst hji
        have hmflush : m ≠ RName.flush := h6 j m true hmem
        have hjL : j < s.arrivals.length := by
          have := h2 _ hmem
          simpa [TQEntry.idx] using this
        have dd := tendDrain_inv s.arrivals.length
          (s.queue.filter (fun e => TQEntry.idx e ≠ j))
          (s.wire ++ [(j, m)])
          (List.Pairwise.sublist (List.filter_sublist s.queue) h1)
          (fun e he => h2 e (List.mem_of_mem_filter he))
          (by
            intro p hp
            rcases List.mem_append.mp hp with hp | hp
            · exact h3 p hp
            · simp only [List.mem_singleton] at hp
              rw [hp]
              exact hjL)
          (by
            intro a ha
            rcases h4 a ha with ⟨e, he, hei⟩ | ⟨n, hn⟩
            · by_cases hej : TQEntry.idx e = j
              · refine Or.inr ⟨m, List.mem_append_right _ ?_⟩
                rw [← hei, hej]
                simp
              · refine Or.inl ⟨e, List.mem_filter.mpr ⟨he, by simpa using hej⟩, hei⟩
            · exact Or.inr ⟨n, List.mem_append_left _ hn⟩)
          (by
            intro f hf a ha
            rcases List.mem_append.mp hf with hf | hf
            · obtain ⟨n, hsub⟩ := h5 f hf a ha
              exact ⟨n, hsub.trans (List.sublist_append_left _ _)⟩
            · simp only [List.mem_singleton, Prod.mk.injEq] at hf
              exact absurd hf.2.symm hmflush)
          (fun i' n' st' hmem' => h6 i' n' st' (List.mem_of_mem_filter hmem'))
        exact ⟨dd.1, dd.2.1, dd.2.2.1, dd.2.2.2.1, dd.2.2.2.2.1, dd.2.2.2.2.2⟩

theorem runTend_inv (acts : List TendAct) : tendInv (runTend acts) := by
  induction acts using List.reverseRecOn with
  | nil => exact tendInv_init
  | append_singleton as a ih =>
    rw [runTend, List.foldl_append]
    have hpref : List.foldl Tend.stepAct Tend.init as = runTend as := rfl
    rw [hpref]
    cases a with
    | recv n => exact tendInv_recv _ n ih
    | step i => exact tendInv_stepTask _ i ih
    | complete i => exact tendInv_completeTask _ i ih

theorem idxFrom_flush_barrier {α : Type} (l : List α) (x : α) (j a : Nat)
    (haj : a < j) (hj : (j, x) ∈ idxFrom 0 l) :
    ∃ n, [(a, n), (j, x)].Sublist (idxFrom 0 l) := by
  obtain ⟨m, hm, hpm⟩ := mem_idxFrom l 0 (j, x) hj
  have hjm : j = m := by simpa using congrArg Prod.fst hpm
  subst hjm
  have hget : l.get ⟨j, hm⟩ = x := by
    have := congrArg Prod.snd hpm
    simpa using this.symm
  have hsub := idxFrom_pair_sublist l 0 a j haj hm
  rw [hget] at hsub
  refine ⟨l.get ⟨a, Nat.lt_trans haj hm⟩, ?_⟩
  simpa using hsub


/-- C3 counterexample.  On the current engine a Consensus connection's
`flush` is an ordinary item of the shared class-level deque.  Connection 0
receives `deliver_tx` (starts on its own instance) then `flush` (queued);
connection 1's first request makes its fresh instance pop the shared
head — connection 0's parked flush work — and complete it, so the framed
`ResponseFlush` is written BEFORE the response of connection 0's earlier
`deliver_tx`: the flush response of arrival 1 is not preceded by any
response of arrival 0. -/
theorem C3_counterexample :
    enqs (connTrace 0 (runMReq [.recv 0 .deliver_tx, .recv 0 .flush,
      .recv 1 .info, .complete 1, .complete 0]).gtrace) =
      [(0, RName.deliver_tx), (1, RName.flush)] ∧
    emits (connTrace 0 (runMReq [.recv 0 .deliver_tx, .recv 0 .flush,
      .recv 1 .info, .complete 1, .complete 0]).gtrace) =
      [(1, RName.flush), (0, RName.deliver_tx)] ∧
    ¬ [(0, RName.deliver_tx), (1, RName.flush)].Sublist
      (emits (connTrace 0 (runMReq [.recv 0 .deliver_tx, .recv 0 .flush,
        .recv 1 .info, .complete 1, .complete 0]).gtrace)) := by
  refine ⟨by decide, by decide, by decide⟩

/-- C3 (amended).  Flush barrier.  If the framed `ResponseFlush` of the
request with arrival index `j` on connection `c` is written, then for
every request of that connection that arrived earlier (`a < j`) some
response frame of `a` is written strictly before it (a two-element
sublist of the connection's write sequence).  This holds: (a) on the
current engine's request-ordered discipline (Consensus) provided the
process has a single Consensus connection — with a second one the shared
class-level deque breaks it, see the counterexample; (b) on the current
engine's response-ordered discipline for every connection under every
multi-connection schedule over the shared deque; (c) on the legacy
engine's queue-with-markers discipline (src/tend/abci/protocol.py, where
a flush arriving over a non-empty response queue is parked as a
`('flush', …)` marker and only written by the drain loop of
`process_response_task`). -/
theorem C3_flush_barrier (ra : List MReqAct) (rb : List MRespAct)
    (tc : List TendAct) (c j a : Nat) (haj : a < j)
    (hra : ∀ x ∈ ra, MReqAct.conn x = 0) :
    ((j, RName.flush) ∈ emits (connTrace 0 (runMReq ra).gtrace) →
      ∃ n, [(a, n), (j, RName.flush)].Sublist
        (emits (connTrace 0 (runMReq ra).gtrace))) ∧
    ((j, RName.flush) ∈ emits (connTrace c (runMResp rb).gtrace) →
      ∃ n, [(a, n), (j, RName.flush)].Sublist
        (emits (connTrace c (runMResp rb).gtrace))) ∧
    ((j, RName.flush) ∈ (runTend tc).wire →
      ∃ n, [(a, n), (j, RName.flush)].Sublist (runTend tc).wire) := by
  refine ⟨?_, ?_, ?_⟩
  · intro hj
    rw [(mreq_single_trace ra hra).1] at hj ⊢
    rw [req_emits_eq (ra.map backAct)] at hj ⊢
    exact idxFrom_flush_barrier _ _ j a haj hj
  · intro hj
    rw [(runMResp_inv rb c).2.2.1] at hj ⊢
    exact idxFrom_flush_barrier _ _ j a haj hj
  · intro hj
    exact (runTend_inv tc).2.2.2.2.1 j hj a haj

theorem C3_flush_barrier_witness :
    (0 : Nat) < 1 ∧
    (∀ x ∈ ([.recv 0 .begin_block, .recv 0 .flush, .complete 0, .complete 0] :
      List MReqAct), MReqAct.conn x = 0) ∧
    (1, RName.flush) ∈ emits (connTrace 0 (runMReq [.recv 0 .begin_block,
      .recv 0 .flush, .complete 0, .complete 0]).gtrace) ∧
    (1, RName.flush) ∈ emits (connTrace 0 (runMResp [.recv 0 .check_tx,
      .recv 0 .flush, .complete 0 0, .complete 0 1]).gtrace) ∧
    (1, RName.flush) ∈
      (runTend [.recv .check_tx, .recv .flush, .step 0, .complete 0]).wire ∧
    (((1, RName.flush) ∈ emits (connTrace 0 (runMReq [.recv 0 .begin_block,
        .recv 0 .flush, .complete 0, .complete 0]).gtrace) →
      ∃ n, [(0, n), (1, RName.flush)].Sublist
        (emits (connTrace 0 (runMReq [.recv 0 .begin_block, .recv 0 .flush,
          .complete 0, .complete 0]).gtrace))) ∧
    ((1, RName.flush) ∈ emits (connTrace 0 (runMResp [.recv 0 .check_tx,
        .recv 0 .flush, .complete 0 0, .complete 0 1]).gtrace) →
      ∃ n, [(0, n), (1, RName.flush)].Sublist
        (emits (connTrace 0 (runMResp [.recv 0 .check_tx, .recv 0 .flush,
          .complete 0 0, .complete 0 1]).gtrace))) ∧
    ((1, RName.flush) ∈
        (runTend [.recv .check_tx, .recv .flush, .step 0, .complete 0]).wire →
      ∃ n, [(0, n), (1, RName.flush)].Sublist
        (runTend [.recv .check_tx, .recv .flush, .step 0, .complete 0]).wire)) :=
  ⟨by decide, by decide, by decide, by decide, by decide,
    C3_flush_barrier [.recv 0 .begin_block, .recv 0 .flush, .complete 0, .complete 0]
      [.recv 0 .check_tx, .recv 0 .flush, .complete 0 0, .complete 0 1]
      [.recv .check_tx, .recv .flush, .step 0, .complete 0] 0 1 0
      (by decide) (by decide)⟩
